import Mathlib

/-! ## Definitions: the embedding of `src/core.ts` -/

/-!
Verification of the core of `json-dts-generator` (`src/core.ts`).

The development embeds the shape-inference and deduplication engine of the
repository: the recursive converter `convertToType` / `_convertToType`, the
type cache created by `createCache`, and the registration routine
`createType`.  JavaScript reference semantics (the id closure shared through
`id: cache.id`, and `TypeDeclaration` objects shared between the copied map
and the original) are made explicit by a `Store`: the heap of declaration
objects together with the closure's counter.  A cache's map holds references
(indices into the store) exactly as a JS `Map` holds object references.

The SHA-1/base64 digest of `createHash` is modelled by the key type `HKey`:
`HKey.digest t` stands for the base64 digest of `JSON.stringify(t)` and
`HKey.perturbed t i` for that digest with the decimal rendering of `i`
appended (`hash += id`).  The spec (§6) requires the hash to be deterministic
and collision-resistant, so the digest is modelled as injective; a perturbed
key never equals a plain digest (the digest has fixed length 28, the suffix
is non-empty) and two perturbed keys agree exactly when their types and ids
do (equal fixed-length digests force equal suffixes).
-/

/-! ### Decimal rendering of numbers

JavaScript renders a non-negative integer appended to a string (`"T" + id`,
`hash += id`) in decimal.  `natDecimal` is that rendering; its injectivity
is needed to separate aliases of distinct declarations. -/

def digitChar (d : Nat) : Char :=
  match d with
  | 0 => '0'
  | 1 => '1'
  | 2 => '2'
  | 3 => '3'
  | 4 => '4'
  | 5 => '5'
  | 6 => '6'
  | 7 => '7'
  | 8 => '8'
  | _ => '9'

def natDecimalAux : Nat → Nat → List Char
  | 0, _ => []
  | _ + 1, 0 => []
  | fuel + 1, n + 1 => natDecimalAux fuel ((n + 1) / 10) ++ [digitChar ((n + 1) % 10)]

def natDecimal (n : Nat) : String :=
  if n = 0 then "0" else String.mk (natDecimalAux n n)

/-- Value of a digit character. -/
def digitVal (c : Char) : Nat := c.toNat - 48

/-- Value of a big-endian digit string. -/
def listVal (l : List Char) : Nat := l.foldl (fun acc c => acc * 10 + digitVal c) 0

/-! ### Type aliases

`typeAlias(id)` is the source's `"T" + id` (`src/core.ts`). -/

def typeAlias (id : Nat) : String := "T" ++ natDecimal id

/-- The four primitive type names returned without registration. -/
def PrimType (s : String) : Prop :=
  s = "string" ∨ s = "number" ∨ s = "boolean" ∨ s = "null"

/-! ### String comparison and key sorting

`Object.keys(x).sort()` sorts the keys with the default comparator:
lexicographic comparison of the strings.  Lean's built-in `String` order does
not reduce in the kernel, so the comparison is defined directly on the
character data (JS compares UTF-16 code units; this comparison uses code
points, which agrees on all keys outside surrogate-pair territory, and no
claim depends on the relative order of two specific keys). -/

def strLtb : List Char → List Char → Bool
  | [], [] => false
  | [], _ :: _ => true
  | _ :: _, [] => false
  | a :: as, b :: bs =>
    if a.toNat < b.toNat then true
    else if b.toNat < a.toNat then false
    else strLtb as bs

/-- The comparator used to sort object keys (`p ≤ q` on the key component). -/
def sortRel {α : Type} (p q : String × α) : Prop :=
  (! strLtb q.1.data p.1.data) = true

instance {α : Type} : DecidableRel (@sortRel α) :=
  fun _ _ => instDecidableEqBool _ _

/-- The strict version of the comparator, used for canonicity arguments. -/
def sortRelS {α : Type} (p q : String × α) : Prop :=
  strLtb p.1.data q.1.data = true

/-- `Object.keys(x).sort()` followed by member access, modelled as a stable
sort of the property list by key. -/
def sortByKey {α : Type} (l : List (String × α)) : List (String × α) :=
  l.insertionSort sortRel

/-! ### Data model (`src/core.ts`)

`type Type = string | { [key: string]: Type }`.  The converter only ever
builds object types whose member values are the strings returned by
`_convertToType` (`typeObject[key] = _convertToType(...)`), so object members
are modelled as rendered type strings, in insertion order (which the code
makes sorted-key order). -/

inductive Ty where
  | str : String → Ty
  | obj : List (String × String) → Ty
deriving DecidableEq

/-- Model of the map keys produced by `createHash` and the `hash += id`
perturbation.  `digest t` is the base64 SHA-1 digest of `JSON.stringify(t)`;
`perturbed t i` is that digest with the decimal rendering of `i` appended.
The spec requires the digest to be deterministic and collision-resistant
(§6), so digests of distinct types are distinct; a perturbed key differs
from every plain digest because digests have fixed length 28 and the decimal
suffix is non-empty; two perturbed keys agree exactly when both components
do, because the fixed-length digests must then match, and the remaining
decimal suffixes determine the ids (`natDecimal_inj`). -/
inductive HKey where
  | digest : Ty → HKey
  | perturbed : Ty → Nat → HKey
deriving DecidableEq

/-- `interface TypeDeclaration { id; contexts; type }`. -/
structure TypeDeclaration where
  id : Nat
  contexts : List String
  ty : Ty
deriving DecidableEq

/-- The ambient JavaScript state shared by every cache of one
`createCache` lineage: the closure variable `currentId` behind `cache.id`,
and the heap of `TypeDeclaration` objects.  A declaration object is
identified by its index in `decls` (its allocation order). -/
structure Store where
  counter : Nat
  decls : List TypeDeclaration
deriving DecidableEq

/-- `interface Cache { map: Map<string, TypeDeclaration>; id(): number }`.
The map holds references to declaration objects (indices into the store's
`decls`); the `id` closure is the store's counter. -/
structure Cache where
  map : List (HKey × Nat)
deriving DecidableEq

/-- Placeholder declaration used to totalise dangling-reference lookups,
which never occur in states reachable by the code (a JS `Map` can only hold
references to live objects). -/
def dummyDecl : TypeDeclaration := ⟨0, [], Ty.str ""⟩

/-- `Map.get` (first, and in reachable states only, binding of a key). -/
def mapFind (m : List (HKey × Nat)) (k : HKey) : Option Nat :=
  match m with
  | [] => none
  | (k2, p) :: rest => if k2 = k then some p else mapFind rest k

/-- `Map.set`: replace the binding in place if the key is present, else
append a new binding (JS `Map` preserves insertion order). -/
def mapSet (m : List (HKey × Nat)) (k : HKey) (v : Nat) : List (HKey × Nat) :=
  match m with
  | [] => [(k, v)]
  | (k2, p) :: rest => if k2 = k then (k, v) :: rest else (k2, p) :: mapSet rest k v

/-- `createCache()`: an empty map together with a fresh id closure starting
at 0 — the closure environment is the (initially empty) store. -/
def createCache : Store × Cache := (⟨0, []⟩, ⟨[]⟩)

/-- `typeAlias` of `src/core.ts` is `typeAlias` above; `createType` follows
the source line by line.  The reuse branch mutates the found declaration
object in the heap (`declaration.contexts.push(context)`); the create branch
consumes `cache.id()` (the shared counter), perturbs the key for forced
unique types, allocates a declaration object and binds it in the map. -/
def createType (st : Store) (c : Cache) (t : Ty) (context : String)
    (unique : Bool) : String × Store × Cache :=
  match unique, mapFind c.map (HKey.digest t) with
  | false, some p =>
    let d := st.decls.getD p dummyDecl
    (typeAlias d.id,
     ⟨st.counter, st.decls.set p ⟨d.id, d.contexts ++ [context], d.ty⟩⟩, c)
  | u, _ =>
    (typeAlias st.counter,
     ⟨st.counter + 1, st.decls ++ [⟨st.counter, [context], t⟩]⟩,
     ⟨mapSet c.map
        (if u then HKey.perturbed t st.counter else HKey.digest t)
        st.decls.length⟩)

/-! ### JSON values and the converter -/

/-- Runtime values passed to the converter.  The first six constructors are
the JSON kinds of `type JSONValue`; `func` models a non-JSON runtime value
(a plain function: `typeof` is neither of the four primitive tags,
`Array.isArray` is false, and `Object.keys` is empty), which the TypeScript
type excludes but JavaScript can supply at runtime. -/
inductive JSONValue where
  | str : String → JSONValue
  | num : Int → JSONValue
  | bool : Bool → JSONValue
  | null : JSONValue
  | arr : List JSONValue → JSONValue
  | obj : List (String × JSONValue) → JSONValue
  | func : JSONValue

/-- `identifierRegex = /^[$_a-z][$_a-z0-9]*$/i`. -/
def isIdentStart (c : Char) : Bool :=
  c = '$' || c = '_' || ('a' ≤ c && c ≤ 'z') || ('A' ≤ c && c ≤ 'Z')

def isIdentRest (c : Char) : Bool :=
  isIdentStart c || ('0' ≤ c && c ≤ '9')

def isIdentifier (s : String) : Bool :=
  match s.data with
  | [] => false
  | c :: cs => isIdentStart c && cs.all isIdentRest

/-- The context path suffix for an object member
(`identifierRegex.test(key) ? "." + key : lbracket-quoted`). -/
def contextSuffix (key : String) : String :=
  if isIdentifier key then "." ++ key else "[\"" ++ key ++ "\"]"

/-! Fuel bound for the converter: one unit per node consulted.  Elements of
an array other than the first, and unvisited branches, are not counted,
mirroring what `_convertToType` actually traverses. -/
mutual
def sizeV : JSONValue → Nat
  | .str _ => 1
  | .num _ => 1
  | .bool _ => 1
  | .null => 1
  | .arr [] => 1
  | .arr (v :: _) => 1 + sizeV v
  | .obj props => 1 + sizeP props
  | .func => 1
def sizeP : List (String × JSONValue) → Nat
  | [] => 0
  | (_, v) :: rest => 1 + sizeV v + sizeP rest
end

/-! `_convertToType(x, context)`, in explicit store-passing style.  General
recursion is embedded with a fuel parameter (`none` = fuel exhausted; the
sufficiency theorem below shows the fuel used by `convertToType` always
suffices, which is the termination argument for the source's recursion).
The object branch iterates `Object.keys(x).sort()` and converts each member,
building `typeObject` in sorted-key insertion order; with the keys of a JS
object being distinct, iterating the key-sorted property list is the same
traversal. -/
mutual
def convertRec : Nat → JSONValue → String → Store → Cache →
    Option (String × Store × Cache)
  | 0, _, _, _, _ => none
  | _ + 1, .str _, _, st, c => some ("string", st, c)
  | _ + 1, .num _, _, st, c => some ("number", st, c)
  | _ + 1, .bool _, _, st, c => some ("boolean", st, c)
  | _ + 1, .null, _, st, c => some ("null", st, c)
  | _ + 1, .arr [], context, st, c =>
    some (createType st c (Ty.str "unknown[]") context true)
  | fuel + 1, .arr (v :: _), context, st, c =>
    match convertRec fuel v (context ++ "[0]") st c with
    | none => none
    | some (t, st2, c2) => some (t ++ "[]", st2, c2)
  | fuel + 1, .obj props, context, st, c =>
    match convertProps fuel (sortByKey props) context st c with
    | none => none
    | some (entries, st2, c2) =>
      some (createType st2 c2 (Ty.obj entries) context false)
  | _ + 1, .func, context, st, c =>
    some (createType st c (Ty.obj []) context false)
def convertProps : Nat → List (String × JSONValue) → String → Store → Cache →
    Option (List (String × String) × Store × Cache)
  | 0, _, _, _, _ => none
  | _ + 1, [], _, st, c => some ([], st, c)
  | fuel + 1, (k, v) :: rest, context, st, c =>
    match convertRec fuel v (context ++ contextSuffix k) st c with
    | none => none
    | some (t, st2, c2) =>
      match convertProps fuel rest context st2 c2 with
      | none => none
      | some (entries, st3, c3) => some ((k, t) :: entries, st3, c3)
end

/-- The root origin label: `file ? file + ":root" : "root"` (an empty file
string is falsy in JavaScript). -/
def rootContext : Option String → String
  | none => "root"
  | some f => if f.isEmpty then "root" else f ++ ":root"

/-- Result of `convertToType`: the returned `type` string and `cache`,
together with the ambient store. -/
structure ConvResult where
  type : String
  store : Store
  cache : Cache
deriving DecidableEq

/-- `convertToType(cache, x, file?)`.  The source copies the map entries
into a new `Map` (`new Map(cache.map)`) — the entries are key/reference
pairs, so the copy shares both the declaration objects and the id closure
with the original — and runs `_convertToType` against the copy, returning
the rendered type and the copy.  In this embedding the map is a value, so
the copy is the value itself; the shared heap and counter live in the
store. -/
def convertToType (st : Store) (c : Cache) (x : JSONValue)
    (file : Option String) : ConvResult :=
  match convertRec (sizeV x + 1) x (rootContext file) st c with
  | some (t, st2, c2) => ⟨t, st2, c2⟩
  | none => ⟨"", st, c⟩

/-! ### Well-formedness of reachable states -/

/-- What a map binding says about the declaration object it references:
a digest key binds a declaration with exactly that structural type; a
perturbed key records the consumed id, and the referenced forced-unique
declaration keeps exactly one context (it is never found by the reuse
lookup, which only probes plain digests). -/
def KeyMatches (st : Store) (kp : HKey × Nat) : Prop :=
  match kp.1 with
  | .digest t => (st.decls.getD kp.2 dummyDecl).ty = t
  | .perturbed t i =>
    (st.decls.getD kp.2 dummyDecl).ty = t ∧
    (st.decls.getD kp.2 dummyDecl).id = i ∧
    (st.decls.getD kp.2 dummyDecl).contexts.length = 1

/-- Invariant of every state reachable by threading the returned cache
through successive conversions: the map references the declaration objects
in allocation order, ids are `0, …, counter−1` in allocation order, keys are
never rebound, and every binding matches its declaration. -/
structure WFState (st : Store) (c : Cache) : Prop where
  ptrs : c.map.map Prod.snd = List.range st.decls.length
  ids : st.decls.map TypeDeclaration.id = List.range st.counter
  keysN : (c.map.map Prod.fst).Nodup
  kbind : ∀ kp ∈ c.map, KeyMatches st kp

/-- What one call can do to the shared store and to the threaded cache:
bindings are only appended, declaration objects are only allocated, and an
existing declaration keeps its id and type, growing only in contexts. -/
structure StateExt (st : Store) (c : Cache) (st2 : Store) (c2 : Cache) : Prop where
  map_ext : ∃ l, c2.map = c.map ++ l
  counter_le : st.counter ≤ st2.counter
  decls_le : st.decls.length ≤ st2.decls.length
  decls_stable : ∀ p, p < st.decls.length →
    (st2.decls.getD p dummyDecl).id = (st.decls.getD p dummyDecl).id ∧
    (st2.decls.getD p dummyDecl).ty = (st.decls.getD p dummyDecl).ty ∧
    ∃ cs, (st2.decls.getD p dummyDecl).contexts =
      (st.decls.getD p dummyDecl).contexts ++ cs

/-- States produced from `createCache()` by threading the returned cache
through successive `convertToType` calls. -/
inductive Reachable : Store → Cache → Prop where
  | init : Reachable createCache.1 createCache.2
  | step {st : Store} {c : Cache} (x : JSONValue) (f : Option String) :
      Reachable st c →
      Reachable (convertToType st c x f).store (convertToType st c x f).cache

/-! ### Claim C1 -/

/-- `k` copies of the array suffix `"[]"`. -/
def arrSuffix : Nat → String
  | 0 => ""
  | k + 1 => arrSuffix k ++ "[]"

/-- `s` is the alias of exactly one declaration bound in the cache. -/
def AliasOfUnique (st : Store) (c : Cache) (s : String) : Prop :=
  ∃ i, s = typeAlias i ∧
    ∃! kp : HKey × Nat, kp ∈ c.map ∧ (st.decls.getD kp.2 dummyDecl).id = i

/-- Shape of every string `_convertToType` returns: a primitive tag or the
alias of exactly one cached declaration, followed by zero or more `"[]"`
suffixes. -/
def ReturnForm (st : Store) (c : Cache) (s : String) : Prop :=
  ∃ base k, s = base ++ arrSuffix k ∧ (PrimType base ∨ AliasOfUnique st c base)

/-! ### Claim C3: shapes and the denotation of cached aliases -/

/-! The shape of a JSON value: what `_convertToType` consults.  Array
element order and length are not part of the shape — only the first
element is consulted; object keys are canonically sorted; an empty array
has its own marker shape. -/
inductive Shape where
  | sstr : Shape
  | snum : Shape
  | sbool : Shape
  | snull : Shape
  | sarrE : Shape
  | sarr : Shape → Shape
  | sobj : List (String × Shape) → Shape

mutual
def shape : JSONValue → Shape
  | .str _ => .sstr
  | .num _ => .snum
  | .bool _ => .sbool
  | .null => .snull
  | .arr [] => .sarrE
  | .arr (v :: _) => .sarr (shape v)
  | .obj props => .sobj (sortByKey (shapeP props))
  | .func => .sobj []
def shapeP : List (String × JSONValue) → List (String × Shape)
  | [] => []
  | (k, v) :: rest => (k, shape v) :: shapeP rest
end

mutual
def noEmptyArr : JSONValue → Bool
  | .str _ => true
  | .num _ => true
  | .bool _ => true
  | .null => true
  | .arr [] => false
  | .arr (v :: _) => noEmptyArr v
  | .obj props => noEmptyArrP props
  | .func => true
def noEmptyArrP : List (String × JSONValue) → Bool
  | [] => true
  | (_, v) :: rest => noEmptyArr v && noEmptyArrP rest
end

/-! What a shape denotes in a given state: the string `_convertToType`
returns for a value of that shape once the cache already holds the shape's
object entries.  An empty-array shape has no stable denotation (it is
forced unique). -/
mutual
def evalShape (st : Store) (c : Cache) : Shape → String → Prop
  | .sstr, t => t = "string"
  | .snum, t => t = "number"
  | .sbool, t => t = "boolean"
  | .snull, t => t = "null"
  | .sarrE, _ => False
  | .sarr s, t => ∃ u, evalShape st c s u ∧ t = u ++ "[]"
  | .sobj ms, t => ∃ entries p,
      evalMembers st c ms entries ∧
      mapFind c.map (HKey.digest (Ty.obj entries)) = some p ∧
      p < st.decls.length ∧
      t = typeAlias ((st.decls.getD p dummyDecl).id)
def evalMembers (st : Store) (c : Cache) :
    List (String × Shape) → List (String × String) → Prop
  | [], [] => True
  | (k, s) :: ms, (k2, u) :: es =>
    k2 = k ∧ evalShape st c s u ∧ evalMembers st c ms es
  | _ :: _, [] => False
  | [], _ :: _ => False
end

/-! ## Theorems -/

theorem digitVal_digitChar : ∀ d, d < 10 → digitVal (digitChar d) = d := by decide

theorem digitChar_toNat : ∀ d, d < 10 →
    48 ≤ (digitChar d).toNat ∧ (digitChar d).toNat ≤ 57 := by decide

theorem listVal_concat (l : List Char) (c : Char) :
    listVal (l ++ [c]) = 10 * listVal l + digitVal c := by
  simp [listVal, List.foldl_append, Nat.mul_comm]

theorem natDecimalAux_val : ∀ fuel n, n ≤ fuel → listVal (natDecimalAux fuel n) = n := by
  intro fuel
  induction fuel with
  | zero =>
    intro n hn
    interval_cases n
    simp [natDecimalAux, listVal]
  | succ fuel ih =>
    intro n hn
    match n with
    | 0 => simp [natDecimalAux, listVal]
    | n + 1 =>
      have hq : (n + 1) / 10 ≤ fuel := by
        have := Nat.div_lt_self (Nat.succ_pos n) (by omega : 1 < 10)
        omega
      rw [natDecimalAux, listVal_concat, ih _ hq,
        digitVal_digitChar _ (Nat.mod_lt _ (by omega))]
      omega

theorem natDecimal_inj {a b : Nat} (h : natDecimal a = natDecimal b) : a = b := by
  unfold natDecimal at h
  split_ifs at h with ha hb hb
  · omega
  · exfalso
    have hdata : (String.mk ['0']).data = (String.mk (natDecimalAux b b)).data := by
      rw [show String.mk ['0'] = "0" from rfl, h]
    simp only [String.data] at hdata
    have := natDecimalAux_val b b (Nat.le_refl b)
    rw [← hdata] at this
    simp [listVal, digitVal] at this
    omega
  · exfalso
    have hdata : (String.mk (natDecimalAux a a)).data = (String.mk ['0']).data := by
      rw [show String.mk ['0'] = "0" from rfl, h]
    simp only [String.data] at hdata
    have := natDecimalAux_val a a (Nat.le_refl a)
    rw [hdata] at this
    simp [listVal, digitVal] at this
    omega
  · have hdata : natDecimalAux a a = natDecimalAux b b := by
      have := congrArg String.data h
      simpa using this
    have va := natDecimalAux_val a a (Nat.le_refl a)
    have vb := natDecimalAux_val b b (Nat.le_refl b)
    rw [hdata] at va
    omega

theorem natDecimalAux_last : ∀ fuel n, 0 < n → n ≤ fuel →
    ∃ d, d < 10 ∧ (natDecimalAux fuel n).getLast? = some (digitChar d) := by
  intro fuel n hn hfn
  match fuel, n with
  | 0, _ => omega
  | _ + 1, 0 => omega
  | fuel + 1, n + 1 =>
    exact ⟨(n + 1) % 10, Nat.mod_lt _ (by omega), by
      rw [natDecimalAux, List.getLast?_concat]⟩

theorem natDecimal_last (n : Nat) :
    ∃ d, d < 10 ∧ (natDecimal n).data.getLast? = some (digitChar d) := by
  unfold natDecimal
  split_ifs with h
  · exact ⟨0, by omega, rfl⟩
  · exact natDecimalAux_last n n (by omega) (Nat.le_refl n)

theorem natDecimal_ne_nil (n : Nat) : (natDecimal n).data ≠ [] := by
  obtain ⟨d, _, hd⟩ := natDecimal_last n
  intro hnil
  rw [hnil] at hd
  simp at hd

theorem string_data_inj : ∀ {s t : String}, s.data = t.data → s = t := by
  intro s t h
  cases s
  cases t
  exact congrArg String.mk h

theorem char_toNat_inj {x y : Char} (h : x.toNat = y.toNat) : x = y := by
  rw [← Char.ofNat_toNat x, ← Char.ofNat_toNat y, h]

theorem typeAlias_inj {a b : Nat} (h : typeAlias a = typeAlias b) : a = b := by
  apply natDecimal_inj
  apply string_data_inj
  have := congrArg String.data h
  simpa [typeAlias, String.data_append] using this

theorem typeAlias_data (i : Nat) : (typeAlias i).data = 'T' :: (natDecimal i).data := by
  simp [typeAlias, String.data_append]

theorem getLast?_cons_of_ne_nil {α : Type} (a : α) {l : List α} (h : l ≠ []) :
    (a :: l).getLast? = l.getLast? := by
  cases l with
  | nil => exact absurd rfl h
  | cons b t => rfl

theorem typeAlias_last (i : Nat) :
    ∃ d, d < 10 ∧ (typeAlias i).data.getLast? = some (digitChar d) := by
  obtain ⟨d, hd, hlast⟩ := natDecimal_last i
  exact ⟨d, hd, by rw [typeAlias_data, getLast?_cons_of_ne_nil _ (natDecimal_ne_nil i), hlast]⟩

theorem append_brackets_last (s : String) : (s ++ "[]").data.getLast? = some ']' := by
  rw [String.data_append]
  have : s.data ++ "[]".data = (s.data ++ ['[']) ++ [']'] := by
    simp [show "[]".data = ['[', ']'] from rfl]
  rw [this, List.getLast?_concat]

theorem prim_last {s : String} (h : PrimType s) :
    s.data.getLast? = some 'g' ∨ s.data.getLast? = some 'r' ∨
    s.data.getLast? = some 'n' ∨ s.data.getLast? = some 'l' := by
  rcases h with h | h | h | h <;> subst h <;> simp [String.data]

theorem prim_ne_alias {s : String} (h : PrimType s) (i : Nat) : s ≠ typeAlias i := by
  intro he
  obtain ⟨d, hd, hlast⟩ := typeAlias_last i
  rw [he] at h
  have h2 := prim_last h
  rw [hlast] at h2
  have := digitChar_toNat d hd
  rcases h2 with h2 | h2 | h2 | h2 <;>
    · have := congrArg (fun o => Option.map Char.toNat o) h2
      simp at this
      omega

theorem prim_ne_brackets {s u : String} (h : PrimType s) : s ≠ u ++ "[]" := by
  intro he
  have h2 := prim_last h
  rw [he, append_brackets_last] at h2
  rcases h2 with h2 | h2 | h2 | h2 <;> simp at h2

theorem alias_ne_brackets (i : Nat) (u : String) : typeAlias i ≠ u ++ "[]" := by
  intro he
  obtain ⟨d, hd, hlast⟩ := typeAlias_last i
  rw [he, append_brackets_last] at hlast
  have := digitChar_toNat d hd
  have := congrArg (fun o => Option.map Char.toNat o) hlast
  simp at this
  omega

theorem brackets_inj {u v : String} (h : u ++ "[]" = v ++ "[]") : u = v := by
  apply string_data_inj
  have := congrArg String.data h
  rw [String.data_append, String.data_append] at this
  exact List.append_cancel_right this

theorem bnot_true {b : Bool} (h : (!b) = true) : b = false := by
  cases b
  · rfl
  · exact Bool.noConfusion h

theorem bnot_intro {b : Bool} (h : b = false) : (!b) = true := by
  rw [h]
  rfl

theorem strLtb_trans : ∀ {a b c : List Char},
    strLtb a b = true → strLtb b c = true → strLtb a c = true := by
  intro a
  induction a with
  | nil =>
    intro b c hab hbc
    cases b with
    | nil => simp [strLtb] at hab
    | cons y ys =>
      cases c with
      | nil => simp [strLtb] at hbc
      | cons z zs => simp [strLtb]
  | cons x xs ih =>
    intro b c hab hbc
    cases b with
    | nil => simp [strLtb] at hab
    | cons y ys =>
      cases c with
      | nil => simp [strLtb] at hbc
      | cons z zs =>
        rw [strLtb] at hab hbc ⊢
        rcases Nat.lt_trichotomy x.toNat y.toNat with hxy | hxy | hxy <;>
          rcases Nat.lt_trichotomy y.toNat z.toNat with hyz | hyz | hyz
        · rw [if_pos (by omega : x.toNat < z.toNat)]
        · rw [if_pos (by omega : x.toNat < z.toNat)]
        · rw [if_neg (by omega), if_pos (by omega)] at hbc
          exact Bool.noConfusion hbc
        · rw [if_pos (by omega : x.toNat < z.toNat)]
        · rw [if_neg (by omega), if_neg (by omega)] at hab
          rw [if_neg (by omega), if_neg (by omega)] at hbc
          rw [if_neg (by omega), if_neg (by omega)]
          exact ih hab hbc
        · rw [if_neg (by omega), if_pos (by omega)] at hbc
          exact Bool.noConfusion hbc
        · rw [if_neg (by omega), if_pos (by omega)] at hab
          exact Bool.noConfusion hab
        · rw [if_neg (by omega), if_pos (by omega)] at hab
          exact Bool.noConfusion hab
        · rw [if_neg (by omega), if_pos (by omega)] at hab
          exact Bool.noConfusion hab

theorem strLtb_irrefl : ∀ {a : List Char}, strLtb a a = false := by
  intro a
  induction a with
  | nil => rfl
  | cons x xs ih => simp [strLtb, ih]

theorem strLtb_asymm {a b : List Char} (h : strLtb a b = true) : strLtb b a = false := by
  by_contra hc
  have hba : strLtb b a = true := by
    cases hx : strLtb b a
    · exact absurd hx hc
    · rfl
  have := strLtb_trans h hba
  rw [strLtb_irrefl] at this
  exact Bool.noConfusion this

theorem strLtb_connex : ∀ {a b : List Char},
    strLtb a b = false → strLtb b a = false → a = b := by
  intro a
  induction a with
  | nil =>
    intro b hab _
    cases b with
    | nil => rfl
    | cons y ys => simp [strLtb] at hab
  | cons x xs ih =>
    intro b hab hba
    cases b with
    | nil => simp [strLtb] at hba
    | cons y ys =>
      rw [strLtb] at hab hba
      rcases Nat.lt_trichotomy x.toNat y.toNat with hxy | hxy | hxy
      · rw [if_pos hxy] at hab
        exact Bool.noConfusion hab
      · rw [if_neg (by omega), if_neg (by omega)] at hab
        rw [if_neg (by omega), if_neg (by omega)] at hba
        rw [char_toNat_inj hxy, ih hab hba]
      · rw [if_pos hxy] at hba
        exact Bool.noConfusion hba

instance {α : Type} : IsTotal (String × α) sortRel := by
  constructor
  intro p q
  cases hx : strLtb q.1.data p.1.data
  · left
    exact bnot_intro hx
  · right
    exact bnot_intro (strLtb_asymm hx)

instance {α : Type} : IsTrans (String × α) sortRel := by
  constructor
  intro p q r hpq hqr
  have hpq2 : strLtb q.1.data p.1.data = false := bnot_true hpq
  have hqr2 : strLtb r.1.data q.1.data = false := bnot_true hqr
  apply bnot_intro
  cases hx : strLtb r.1.data p.1.data
  · rfl
  · exfalso
    cases hy : strLtb q.1.data r.1.data
    · have heq := strLtb_connex hqr2 hy
      rw [heq] at hx
      rw [hpq2] at hx
      exact Bool.noConfusion hx
    · have := strLtb_trans hy hx
      rw [hpq2] at this
      exact Bool.noConfusion this

instance {α : Type} : IsAntisymm (String × α) sortRelS := by
  constructor
  intro p q hpq hqp
  exfalso
  have := strLtb_asymm hpq
  rw [hqp] at this
  exact Bool.noConfusion this

theorem sortByKey_perm {α : Type} (l : List (String × α)) : (sortByKey l).Perm l :=
  List.perm_insertionSort _ l

theorem sortByKey_sorted {α : Type} (l : List (String × α)) :
    (sortByKey l).Sorted sortRel :=
  List.sorted_insertionSort _ l

theorem sorted_strict {α : Type} {l : List (String × α)} (hs : l.Sorted sortRel)
    (hn : (l.map Prod.fst).Nodup) : l.Sorted sortRelS := by
  have hk : l.Pairwise (fun p q => p.1 ≠ q.1) := List.pairwise_map.mp hn
  refine (hs.and hk).imp ?_
  rintro p q ⟨h1, h2⟩
  have h3 : strLtb q.1.data p.1.data = false := bnot_true h1
  cases hx : strLtb p.1.data q.1.data
  · exfalso
    exact h2 (string_data_inj (strLtb_connex hx h3))
  · exact hx

theorem sortByKey_eq_of_perm {α : Type} {l1 l2 : List (String × α)} (hp : l1.Perm l2)
    (hn : (l1.map Prod.fst).Nodup) : sortByKey l1 = sortByKey l2 := by
  have hn2 : (l2.map Prod.fst).Nodup := (hp.map Prod.fst).nodup_iff.mp hn
  have hs1 : (sortByKey l1).Sorted sortRelS :=
    sorted_strict (sortByKey_sorted l1)
      (((sortByKey_perm l1).map Prod.fst).nodup_iff.mpr hn)
  have hs2 : (sortByKey l2).Sorted sortRelS :=
    sorted_strict (sortByKey_sorted l2)
      (((sortByKey_perm l2).map Prod.fst).nodup_iff.mpr hn2)
  exact List.eq_of_perm_of_sorted
    (((sortByKey_perm l1).trans hp).trans (sortByKey_perm l2).symm) hs1 hs2

theorem orderedInsert_map {α β : Type} (f : α → β) (p : String × α) :
    ∀ l : List (String × α),
      (List.orderedInsert sortRel p l).map (fun q => (q.1, f q.2)) =
        List.orderedInsert sortRel (p.1, f p.2) (l.map (fun q => (q.1, f q.2))) := by
  intro l
  induction l with
  | nil => rfl
  | cons q rest ih =>
    by_cases h : sortRel p q
    · have h2 : sortRel (p.1, f p.2) (q.1, f q.2) := h
      simp only [List.orderedInsert, if_pos h, if_pos h2, List.map_cons]
    · have h2 : ¬ sortRel (p.1, f p.2) (q.1, f q.2) := h
      simp only [List.orderedInsert, if_neg h, if_neg h2, List.map_cons]
      rw [ih]

theorem sortByKey_map {α β : Type} (f : α → β) :
    ∀ l : List (String × α),
      sortByKey (l.map (fun q => (q.1, f q.2))) =
        (sortByKey l).map (fun q => (q.1, f q.2)) := by
  intro l
  induction l with
  | nil => rfl
  | cons p rest ih =>
    simp only [List.map_cons, sortByKey, List.insertionSort] at ih ⊢
    rw [ih, ← orderedInsert_map]

theorem mapFind_mem {m : List (HKey × Nat)} {k : HKey} {p : Nat}
    (h : mapFind m k = some p) : (k, p) ∈ m := by
  induction m with
  | nil => exact Option.noConfusion h
  | cons kp rest ih =>
    obtain ⟨k2, p2⟩ := kp
    rw [mapFind] at h
    split_ifs at h with he
    · rw [List.mem_cons]
      left
      rw [← he, Option.some_inj.mp h]
    · exact List.mem_cons_of_mem _ (ih h)

theorem mapFind_eq_none {m : List (HKey × Nat)} {k : HKey}
    (h : k ∉ m.map Prod.fst) : mapFind m k = none := by
  induction m with
  | nil => rfl
  | cons kp rest ih =>
    obtain ⟨k2, p2⟩ := kp
    rw [List.map_cons, List.mem_cons] at h
    push_neg at h
    rw [mapFind, if_neg (fun he => h.1 he.symm)]
    exact ih h.2

theorem mapFind_none_not_mem {m : List (HKey × Nat)} {k : HKey}
    (h : mapFind m k = none) : k ∉ m.map Prod.fst := by
  induction m with
  | nil => simp
  | cons kp rest ih =>
    obtain ⟨k2, p2⟩ := kp
    rw [mapFind] at h
    by_cases he : k2 = k
    · rw [if_pos he] at h
      exact Option.noConfusion h
    · rw [if_neg he] at h
      rw [List.map_cons, List.mem_cons]
      rintro (h1 | h1)
      · exact he h1.symm
      · exact ih h h1

theorem mapFind_append_left {m l : List (HKey × Nat)} {k : HKey} {p : Nat}
    (h : mapFind m k = some p) : mapFind (m ++ l) k = some p := by
  induction m with
  | nil => exact Option.noConfusion h
  | cons kp rest ih =>
    obtain ⟨k2, p2⟩ := kp
    rw [mapFind] at h
    rw [List.cons_append, mapFind]
    split_ifs at h ⊢ with he
    · exact h
    · exact ih h

theorem mapFind_append_self {m : List (HKey × Nat)} {k : HKey} (p : Nat)
    (h : mapFind m k = none) : mapFind (m ++ [(k, p)]) k = some p := by
  induction m with
  | nil => simp [mapFind]
  | cons kp rest ih =>
    obtain ⟨k2, p2⟩ := kp
    rw [mapFind] at h
    rw [List.cons_append, mapFind]
    by_cases he : k2 = k
    · rw [if_pos he] at h
      exact Option.noConfusion h
    · rw [if_neg he] at h
      rw [if_neg he]
      exact ih h

theorem mapSet_append {m : List (HKey × Nat)} {k : HKey} (v : Nat)
    (h : k ∉ m.map Prod.fst) : mapSet m k v = m ++ [(k, v)] := by
  induction m with
  | nil => rfl
  | cons kp rest ih =>
    obtain ⟨k2, p2⟩ := kp
    rw [List.map_cons, List.mem_cons] at h
    push_neg at h
    rw [mapSet, if_neg (fun he => h.1 he.symm), List.cons_append, ih h.2]

/-! Sanity checks mirroring the repository's jest tests (`test/main.test.ts`). -/

theorem test_string :
    convertToType createCache.1 createCache.2 (JSONValue.str "foo") none =
      ⟨"string", ⟨0, []⟩, ⟨[]⟩⟩ := by decide

theorem test_array_of_primitives :
    convertToType createCache.1 createCache.2
        (JSONValue.arr [JSONValue.num 1, JSONValue.num 2, JSONValue.num 3]) none =
      ⟨"number[]", ⟨0, []⟩, ⟨[]⟩⟩ := by decide

theorem test_empty_array :
    convertToType createCache.1 createCache.2 (JSONValue.arr []) none =
      ⟨"T0", ⟨1, [⟨0, ["root"], Ty.str "unknown[]"⟩]⟩,
       ⟨[(HKey.perturbed (Ty.str "unknown[]") 0, 0)]⟩⟩ := by decide

theorem test_nested_object :
    convertToType createCache.1 createCache.2
        (JSONValue.obj [("foo", JSONValue.obj [("bar", JSONValue.num 3)])]) none =
      ⟨"T1",
       ⟨2, [⟨0, ["root.foo"], Ty.obj [("bar", "number")]⟩,
            ⟨1, ["root"], Ty.obj [("foo", "T0")]⟩]⟩,
       ⟨[(HKey.digest (Ty.obj [("bar", "number")]), 0),
         (HKey.digest (Ty.obj [("foo", "T0")]), 1)]⟩⟩ := by decide

/-! ### Termination: the fuel used by `convertToType` always suffices -/

theorem sizeV_pos (v : JSONValue) : 1 ≤ sizeV v := by
  cases v with
  | arr elems => cases elems <;> simp [sizeV]
  | obj props => simp [sizeV]
  | _ => simp [sizeV]

theorem sizeP_eq_sum : ∀ l : List (String × JSONValue),
    sizeP l = (l.map (fun p => 1 + sizeV p.2)).sum := by
  intro l
  induction l with
  | nil => rfl
  | cons p rest ih =>
    obtain ⟨k, v⟩ := p
    rw [sizeP, ih, List.map_cons, List.sum_cons]

theorem sizeP_perm {l1 l2 : List (String × JSONValue)} (h : l1.Perm l2) :
    sizeP l1 = sizeP l2 := by
  rw [sizeP_eq_sum, sizeP_eq_sum]
  exact (h.map _).sum_eq

theorem convert_suff : ∀ fuel,
    (∀ v context st c, sizeV v < fuel →
      (convertRec fuel v context st c).isSome = true) ∧
    (∀ l context st c, sizeP l < fuel →
      (convertProps fuel l context st c).isSome = true) := by
  intro fuel
  induction fuel with
  | zero =>
    constructor
    · intro v _ _ _ hv
      omega
    · intro l _ _ _ hl
      omega
  | succ fuel ih =>
    constructor
    · intro v context st c hv
      match v with
      | .str s => rfl
      | .num n => rfl
      | .bool b => rfl
      | .null => rfl
      | .func => rfl
      | .arr [] => rfl
      | .arr (w :: rest) =>
        have hw : sizeV w < fuel := by
          rw [sizeV] at hv
          omega
        have := ih.1 w (context ++ "[0]") st c hw
        rw [convertRec]
        cases hx : convertRec fuel w (context ++ "[0]") st c with
        | none =>
          rw [hx] at this
          exact Bool.noConfusion this
        | some r =>
          obtain ⟨t, st2, c2⟩ := r
          rfl
      | .obj props =>
        have hp : sizeP (sortByKey props) < fuel := by
          rw [sizeP_perm (sortByKey_perm props)]
          rw [sizeV] at hv
          omega
        have := ih.2 (sortByKey props) context st c hp
        rw [convertRec]
        cases hx : convertProps fuel (sortByKey props) context st c with
        | none =>
          rw [hx] at this
          exact Bool.noConfusion this
        | some r =>
          obtain ⟨entries, st2, c2⟩ := r
          rfl
    · intro l context st c hl
      match l with
      | [] => rfl
      | (k, v) :: rest =>
        rw [sizeP] at hl
        have hv : sizeV v < fuel := by omega
        have h1 := ih.1 v (context ++ contextSuffix k) st c hv
        rw [convertProps]
        cases hx : convertRec fuel v (context ++ contextSuffix k) st c with
        | none =>
          rw [hx] at h1
          exact Bool.noConfusion h1
        | some r =>
          obtain ⟨t, st2, c2⟩ := r
          have hr : sizeP rest < fuel := by
            have := sizeV_pos v
            omega
          have h2 := ih.2 rest context st2 c2 hr
          cases hy : convertProps fuel rest context st2 c2 with
          | none =>
            rw [hy] at h2
            exact Bool.noConfusion h2
          | some r2 =>
            obtain ⟨entries, st3, c3⟩ := r2
            simp [hy]

theorem convertToType_spec (st : Store) (c : Cache) (x : JSONValue)
    (file : Option String) : ∃ t st2 c2,
    convertRec (sizeV x + 1) x (rootContext file) st c = some (t, st2, c2) ∧
    convertToType st c x file = ⟨t, st2, c2⟩ := by
  have h := (convert_suff (sizeV x + 1)).1 x (rootContext file) st c (by omega)
  cases hx : convertRec (sizeV x + 1) x (rootContext file) st c with
  | none =>
    rw [hx] at h
    exact Bool.noConfusion h
  | some r =>
    obtain ⟨t, st2, c2⟩ := r
    exact ⟨t, st2, c2, rfl, by rw [convertToType, hx]⟩

/-! ### List access helpers -/

theorem getD_set_self {α : Type} (d a : α) :
    ∀ (l : List α) n, n < l.length → (l.set n a).getD n d = a := by
  intro l
  induction l with
  | nil =>
    intro n hn
    simp at hn
  | cons x xs ih =>
    intro n hn
    cases n with
    | zero => rfl
    | succ m =>
      rw [List.set_cons_succ, List.getD_cons_succ]
      exact ih m (by simpa using hn)

theorem getD_set_ne {α : Type} (d a : α) :
    ∀ (l : List α) m n, m ≠ n → (l.set m a).getD n d = l.getD n d := by
  intro l
  induction l with
  | nil =>
    intro m n _
    rfl
  | cons x xs ih =>
    intro m n hmn
    cases m with
    | zero =>
      cases n with
      | zero => exact absurd rfl hmn
      | succ n2 => rfl
    | succ m2 =>
      cases n with
      | zero => rfl
      | succ n2 =>
        rw [List.set_cons_succ, List.getD_cons_succ, List.getD_cons_succ]
        exact ih m2 n2 (fun he => hmn (by rw [he]))

theorem getD_append_lt {α : Type} (d : α) :
    ∀ (l l2 : List α) n, n < l.length → (l ++ l2).getD n d = l.getD n d := by
  intro l
  induction l with
  | nil =>
    intro l2 n hn
    simp at hn
  | cons x xs ih =>
    intro l2 n hn
    cases n with
    | zero => rfl
    | succ m =>
      rw [List.cons_append, List.getD_cons_succ, List.getD_cons_succ]
      exact ih l2 m (by simpa using hn)

theorem getD_append_len {α : Type} (d a : α) :
    ∀ l : List α, (l ++ [a]).getD l.length d = a := by
  intro l
  induction l with
  | nil => rfl
  | cons x xs ih =>
    rw [List.cons_append, List.length_cons, List.getD_cons_succ]
    exact ih

theorem set_getD_eq_self {α : Type} (d : α) :
    ∀ (l : List α) n, n < l.length → l.set n (l.getD n d) = l := by
  intro l
  induction l with
  | nil =>
    intro n hn
    simp at hn
  | cons x xs ih =>
    intro n hn
    cases n with
    | zero => rfl
    | succ m =>
      rw [List.getD_cons_succ, List.set_cons_succ, ih m (by simpa using hn)]

theorem nodup_snd_eq {l : List (HKey × Nat)} (hn : (l.map Prod.snd).Nodup)
    {k1 k2 : HKey} {p : Nat} (h1 : (k1, p) ∈ l) (h2 : (k2, p) ∈ l) : k1 = k2 := by
  induction l with
  | nil => exact absurd h1 (List.not_mem_nil _)
  | cons kp rest ih =>
    rw [List.map_cons, List.nodup_cons] at hn
    rw [List.mem_cons] at h1 h2
    rcases h1 with h1 | h1 <;> rcases h2 with h2 | h2
    · rw [← h2] at h1
      exact congrArg Prod.fst h1
    · exfalso
      apply hn.1
      have h3 : p ∈ rest.map Prod.snd := by
        have := List.mem_map_of_mem Prod.snd h2
        simpa using this
      rw [← h1]
      exact h3
    · exfalso
      apply hn.1
      have h3 : p ∈ rest.map Prod.snd := by
        have := List.mem_map_of_mem Prod.snd h1
        simpa using this
      rw [← h2]
      exact h3
    · exact ih hn.2 h1 h2

theorem wf_len {st : Store} {c : Cache} (h : WFState st c) :
    st.decls.length = st.counter := by
  have := congrArg List.length h.ids
  simpa using this

theorem wf_maplen {st : Store} {c : Cache} (h : WFState st c) :
    c.map.length = st.decls.length := by
  have := congrArg List.length h.ptrs
  simpa using this

theorem wf_decl_id {st : Store} {c : Cache} (h : WFState st c) {p : Nat}
    (hp : p < st.decls.length) : (st.decls.getD p dummyDecl).id = p := by
  have hpc : p < st.counter := by
    rw [← wf_len h]
    exact hp
  have h1 : (st.decls.map TypeDeclaration.id)[p]? = (List.range st.counter)[p]? := by
    rw [h.ids]
  rw [List.getElem?_map, List.getElem?_eq_getElem hp,
    List.getElem?_eq_getElem (by simpa using hpc)] at h1
  simp only [Option.map_some'] at h1
  have h2 := Option.some_inj.mp h1
  rw [List.getElem_range] at h2
  rw [List.getD_eq_getElem _ _ hp]
  exact h2

theorem wf_ptr_lt {st : Store} {c : Cache} (h : WFState st c) {k : HKey} {p : Nat}
    (hm : (k, p) ∈ c.map) : p < st.decls.length := by
  have : p ∈ c.map.map Prod.snd := List.mem_map_of_mem Prod.snd hm
  rw [h.ptrs, List.mem_range] at this
  exact this

theorem wf_snd_nodup {st : Store} {c : Cache} (h : WFState st c) :
    (c.map.map Prod.snd).Nodup := by
  rw [h.ptrs]
  exact List.nodup_range _

theorem wf_id_lt {st : Store} {c : Cache} (h : WFState st c) {k : HKey} {p : Nat}
    (hm : (k, p) ∈ c.map) : (st.decls.getD p dummyDecl).id < st.counter := by
  rw [wf_decl_id h (wf_ptr_lt h hm), ← wf_len h]
  exact wf_ptr_lt h hm

/-- The initial state `createCache()` is well formed. -/
theorem wf_init : WFState createCache.1 createCache.2 := by
  constructor <;> simp [createCache]

theorem StateExt.refl {st : Store} {c : Cache} : StateExt st c st c := by
  refine ⟨⟨[], by simp⟩, Nat.le_refl _, Nat.le_refl _, ?_⟩
  intro p _
  refine ⟨Eq.refl _, Eq.refl _, [], by simp⟩

theorem StateExt.trans {st1 st2 st3 : Store} {c1 c2 c3 : Cache}
    (h1 : StateExt st1 c1 st2 c2) (h2 : StateExt st2 c2 st3 c3) :
    StateExt st1 c1 st3 c3 := by
  obtain ⟨l1, hl1⟩ := h1.map_ext
  obtain ⟨l2, hl2⟩ := h2.map_ext
  refine ⟨⟨l1 ++ l2, by rw [hl2, hl1, List.append_assoc]⟩,
    Nat.le_trans h1.counter_le h2.counter_le,
    Nat.le_trans h1.decls_le h2.decls_le, ?_⟩
  intro p hp
  obtain ⟨hi1, ht1, cs1, hc1⟩ := h1.decls_stable p hp
  obtain ⟨hi2, ht2, cs2, hc2⟩ := h2.decls_stable p (Nat.lt_of_lt_of_le hp h1.decls_le)
  exact ⟨by rw [hi2, hi1], by rw [ht2, ht1],
    cs1 ++ cs2, by rw [hc2, hc1, List.append_assoc]⟩

theorem getD_map_lt {α β : Type} (f : α → β) (d : α) (d2 : β) :
    ∀ (l : List α) n, n < l.length → (l.map f).getD n d2 = f (l.getD n d) := by
  intro l
  induction l with
  | nil =>
    intro n hn
    simp at hn
  | cons x xs ih =>
    intro n hn
    cases n with
    | zero => rfl
    | succ m =>
      rw [List.map_cons, List.getD_cons_succ, List.getD_cons_succ]
      exact ih m (by simpa using hn)

theorem keyMatches_of_getD_eq {st st2 : Store} {kp : HKey × Nat}
    (he : st2.decls.getD kp.2 dummyDecl = st.decls.getD kp.2 dummyDecl)
    (h : KeyMatches st kp) : KeyMatches st2 kp := by
  obtain ⟨k, q⟩ := kp
  cases k with
  | digest t =>
    simp only [KeyMatches] at h ⊢
    rw [he]
    exact h
  | perturbed t i =>
    simp only [KeyMatches] at h ⊢
    rw [he]
    exact h

/-! ### The three branches of `createType` -/

theorem createType_reuse {st : Store} {c : Cache} {t : Ty} {p : Nat} (context : String)
    (hf : mapFind c.map (HKey.digest t) = some p) :
    createType st c t context false =
      (typeAlias ((st.decls.getD p dummyDecl).id),
       ⟨st.counter,
        st.decls.set p
          ⟨(st.decls.getD p dummyDecl).id,
           (st.decls.getD p dummyDecl).contexts ++ [context],
           (st.decls.getD p dummyDecl).ty⟩⟩, c) := by
  simp only [createType, hf]

theorem createType_new_digest {st : Store} {c : Cache} {t : Ty} (context : String)
    (hf : mapFind c.map (HKey.digest t) = none) :
    createType st c t context false =
      (typeAlias st.counter,
       ⟨st.counter + 1, st.decls ++ [⟨st.counter, [context], t⟩]⟩,
       ⟨mapSet c.map (HKey.digest t) st.decls.length⟩) := by
  simp [createType, hf]

theorem createType_unique {st : Store} {c : Cache} {t : Ty} (context : String) :
    createType st c t context true =
      (typeAlias st.counter,
       ⟨st.counter + 1, st.decls ++ [⟨st.counter, [context], t⟩]⟩,
       ⟨mapSet c.map (HKey.perturbed t st.counter) st.decls.length⟩) := by
  cases hf : mapFind c.map (HKey.digest t) <;> simp [createType, hf]

/-- A perturbed key bearing the current counter is never already bound:
every bound perturbed key records the id of its declaration, and all
allocated ids are below the counter. -/
theorem perturbed_fresh {st : Store} {c : Cache} (h : WFState st c) (t : Ty) :
    HKey.perturbed t st.counter ∉ c.map.map Prod.fst := by
  intro hmem
  obtain ⟨kp, hkp, heq⟩ := List.mem_map.mp hmem
  have hb := h.kbind kp hkp
  obtain ⟨k, q⟩ := kp
  simp only at heq
  rw [heq] at hb
  simp only [KeyMatches] at hb
  have hlt : (st.decls.getD q dummyDecl).id < st.counter :=
    wf_id_lt h (heq ▸ hkp)
  omega

/-- Well-formedness and monotone extension through one `createType`. -/
theorem createType_wf {st : Store} {c : Cache} (h : WFState st c)
    (t : Ty) (context : String) (u : Bool) :
    WFState (createType st c t context u).2.1 (createType st c t context u).2.2 ∧
    StateExt st c (createType st c t context u).2.1 (createType st c t context u).2.2 := by
  cases u with
  | false =>
    cases hf : mapFind c.map (HKey.digest t) with
    | some p =>
      rw [createType_reuse context hf]
      have hp : p < st.decls.length := wf_ptr_lt h (mapFind_mem hf)
      constructor
      · constructor
        · rw [List.length_set]
          exact h.ptrs
        · rw [List.map_set]
          have h2 : (st.decls.map TypeDeclaration.id).getD p 0 =
              (st.decls.getD p dummyDecl).id :=
            getD_map_lt TypeDeclaration.id dummyDecl 0 st.decls p hp
          calc ((st.decls.map TypeDeclaration.id).set p
                  (TypeDeclaration.id
                    ⟨(st.decls.getD p dummyDecl).id,
                     (st.decls.getD p dummyDecl).contexts ++ [context],
                     (st.decls.getD p dummyDecl).ty⟩))
              = (st.decls.map TypeDeclaration.id).set p
                  ((st.decls.map TypeDeclaration.id).getD p 0) := by rw [h2]
            _ = st.decls.map TypeDeclaration.id :=
                set_getD_eq_self 0 _ p (by simpa using hp)
            _ = List.range st.counter := h.ids
        · exact h.keysN
        · intro kp hkp
          by_cases hq : kp.2 = p
          · have hk : kp.1 = HKey.digest t := by
              have h1 : (kp.1, p) ∈ c.map := by
                rw [← hq]
                exact hkp
              exact nodup_snd_eq (wf_snd_nodup h) h1 (mapFind_mem hf)
            obtain ⟨k, q⟩ := kp
            simp only at hk hq
            rw [hk, hq]
            simp only [KeyMatches]
            rw [getD_set_self _ _ _ _ hp]
            have hb := h.kbind (HKey.digest t, p) (mapFind_mem hf)
            simpa [KeyMatches] using hb
          · apply keyMatches_of_getD_eq _ (h.kbind kp hkp)
            exact getD_set_ne _ _ _ _ _ (fun he => hq he.symm)
      · refine ⟨⟨[], by simp⟩, Nat.le_refl _, by rw [List.length_set], ?_⟩
        intro q hq
        by_cases hqp : q = p
        · subst hqp
          rw [getD_set_self _ _ _ _ hp]
          exact ⟨rfl, rfl, [context], rfl⟩
        · rw [getD_set_ne _ _ _ _ _ (fun he => hqp he.symm)]
          exact ⟨rfl, rfl, [], by simp⟩
    | none =>
      rw [createType_new_digest context hf]
      have hfresh : HKey.digest t ∉ c.map.map Prod.fst := mapFind_none_not_mem hf
      rw [mapSet_append _ hfresh]
      constructor
      · constructor
        · rw [List.map_append, h.ptrs, List.length_append]
          simp [List.range_succ]
        · rw [List.map_append, h.ids]
          simp [List.range_succ]
        · rw [List.map_append]
          rw [List.nodup_append]
          refine ⟨h.keysN, List.nodup_singleton _, ?_⟩
          intro a ha hb
          simp at hb
          rw [hb] at ha
          exact hfresh ha
        · intro kp hkp
          rw [List.mem_append] at hkp
          rcases hkp with hkp | hkp
          · apply keyMatches_of_getD_eq _ (h.kbind kp hkp)
            exact getD_append_lt _ _ _ _ (wf_ptr_lt h hkp)
          · simp at hkp
            rw [hkp]
            simp only [KeyMatches]
            rw [getD_append_len]
      · refine ⟨⟨[(HKey.digest t, st.decls.length)], rfl⟩, Nat.le_succ _, by simp, ?_⟩
        intro q hq
        rw [getD_append_lt _ _ _ _ hq]
        exact ⟨rfl, rfl, [], by simp⟩
  | true =>
    rw [createType_unique context]
    have hfresh := perturbed_fresh h t
    rw [mapSet_append _ hfresh]
    constructor
    · constructor
      · rw [List.map_append, h.ptrs, List.length_append]
        simp [List.range_succ]
      · rw [List.map_append, h.ids]
        simp [List.range_succ]
      · rw [List.map_append]
        rw [List.nodup_append]
        refine ⟨h.keysN, List.nodup_singleton _, ?_⟩
        intro a ha hb
        simp at hb
        rw [hb] at ha
        exact hfresh ha
      · intro kp hkp
        rw [List.mem_append] at hkp
        rcases hkp with hkp | hkp
        · apply keyMatches_of_getD_eq _ (h.kbind kp hkp)
          exact getD_append_lt _ _ _ _ (wf_ptr_lt h hkp)
        · simp at hkp
          rw [hkp]
          simp only [KeyMatches]
          rw [getD_append_len]
          exact ⟨rfl, rfl, rfl⟩
    · refine ⟨⟨[(HKey.perturbed t st.counter, st.decls.length)], rfl⟩, Nat.le_succ _, by simp, ?_⟩
      intro q hq
      rw [getD_append_lt _ _ _ _ hq]
      exact ⟨rfl, rfl, [], by simp⟩

/-! ### Preservation through the converter -/

theorem convertRec_wf : ∀ fuel,
    (∀ v context st c r, WFState st c →
      convertRec fuel v context st c = some r →
      WFState r.2.1 r.2.2 ∧ StateExt st c r.2.1 r.2.2) ∧
    (∀ l context st c r2, WFState st c →
      convertProps fuel l context st c = some r2 →
      WFState r2.2.1 r2.2.2 ∧ StateExt st c r2.2.1 r2.2.2) := by
  intro fuel
  induction fuel with
  | zero =>
    constructor
    · intro v context st c r _ h
      exact Option.noConfusion h
    · intro l context st c r2 _ h
      exact Option.noConfusion h
  | succ fuel ih =>
    constructor
    · intro v context st c r hwf h
      match v with
      | .str s =>
        rw [convertRec] at h
        obtain rfl := (Option.some_inj.mp h).symm
        exact ⟨hwf, StateExt.refl⟩
      | .num n =>
        rw [convertRec] at h
        obtain rfl := (Option.some_inj.mp h).symm
        exact ⟨hwf, StateExt.refl⟩
      | .bool b =>
        rw [convertRec] at h
        obtain rfl := (Option.some_inj.mp h).symm
        exact ⟨hwf, StateExt.refl⟩
      | .null =>
        rw [convertRec] at h
        obtain rfl := (Option.some_inj.mp h).symm
        exact ⟨hwf, StateExt.refl⟩
      | .arr [] =>
        rw [convertRec] at h
        obtain rfl := (Option.some_inj.mp h).symm
        exact ⟨(createType_wf hwf _ context true).1, (createType_wf hwf _ context true).2⟩
      | .func =>
        rw [convertRec] at h
        obtain rfl := (Option.some_inj.mp h).symm
        exact ⟨(createType_wf hwf _ context false).1, (createType_wf hwf _ context false).2⟩
      | .arr (w :: rest) =>
        rw [convertRec] at h
        cases hx : convertRec fuel w (context ++ "[0]") st c with
        | none =>
          rw [hx] at h
          exact Option.noConfusion h
        | some r1 =>
          obtain ⟨t1, st1, c1⟩ := r1
          rw [hx] at h
          obtain rfl := (Option.some_inj.mp h).symm
          obtain ⟨hwf1, hext1⟩ := (ih.1) w (context ++ "[0]") st c (t1, st1, c1) hwf hx
          exact ⟨hwf1, hext1⟩
      | .obj props =>
        rw [convertRec] at h
        cases hx : convertProps fuel (sortByKey props) context st c with
        | none =>
          rw [hx] at h
          exact Option.noConfusion h
        | some r1 =>
          obtain ⟨es, st1, c1⟩ := r1
          rw [hx] at h
          obtain rfl := (Option.some_inj.mp h).symm
          obtain ⟨hwf1, hext1⟩ := (ih.2) (sortByKey props) context st c (es, st1, c1) hwf hx
          refine ⟨(createType_wf hwf1 (Ty.obj es) context false).1,
            StateExt.trans hext1 (createType_wf hwf1 (Ty.obj es) context false).2⟩
    · intro l context st c r2 hwf h
      match l with
      | [] =>
        rw [convertProps] at h
        obtain rfl := (Option.some_inj.mp h).symm
        exact ⟨hwf, StateExt.refl⟩
      | (k, v) :: rest =>
        rw [convertProps] at h
        cases hx : convertRec fuel v (context ++ contextSuffix k) st c with
        | none =>
          rw [hx] at h
          exact Option.noConfusion h
        | some r1 =>
          obtain ⟨t1, st1, c1⟩ := r1
          rw [hx] at h
          dsimp only at h
          obtain ⟨hwf1, hext1⟩ := (ih.1) v (context ++ contextSuffix k) st c (t1, st1, c1) hwf hx
          cases hy : convertProps fuel rest context st1 c1 with
          | none =>
            rw [hy] at h
            exact Option.noConfusion h
          | some rr =>
            obtain ⟨es, st3, c3⟩ := rr
            rw [hy] at h
            obtain rfl := (Option.some_inj.mp h).symm
            obtain ⟨hwf2, hext2⟩ := (ih.2) rest context st1 c1 (es, st3, c3) hwf1 hy
            exact ⟨hwf2, StateExt.trans hext1 hext2⟩

theorem convertToType_wf {st : Store} {c : Cache} (hwf : WFState st c)
    (x : JSONValue) (f : Option String) :
    WFState (convertToType st c x f).store (convertToType st c x f).cache ∧
    StateExt st c (convertToType st c x f).store (convertToType st c x f).cache := by
  obtain ⟨t, st2, c2, hx, he⟩ := convertToType_spec st c x f
  rw [he]
  exact (convertRec_wf _).1 x _ st c (t, st2, c2) hwf hx

theorem reachable_wf {st : Store} {c : Cache} (h : Reachable st c) : WFState st c := by
  induction h with
  | init => exact wf_init
  | step x f hr ih => exact (convertToType_wf ih x f).1

/-! ### Claim C6 -/

/-- C6: on a fresh cache, normalizing `{one: [], two: []}` with origin label
`root` produces exactly three declarations — id 0 of type `unknown[]` with
contexts `["root.one"]`, id 1 of type `unknown[]` with contexts
`["root.two"]` (a distinct id despite identical type text), and id 2 of type
`{one: "T0", two: "T1"}` with contexts `["root"]` — and the returned alias
is `"T2"`. -/
theorem C6_scenario :
    convertToType createCache.1 createCache.2
        (JSONValue.obj [("one", JSONValue.arr []), ("two", JSONValue.arr [])]) none =
      ⟨"T2",
       ⟨3, [⟨0, ["root.one"], Ty.str "unknown[]"⟩,
            ⟨1, ["root.two"], Ty.str "unknown[]"⟩,
            ⟨2, ["root"], Ty.obj [("one", "T0"), ("two", "T1")]⟩]⟩,
       ⟨[(HKey.perturbed (Ty.str "unknown[]") 0, 0),
         (HKey.perturbed (Ty.str "unknown[]") 1, 1),
         (HKey.digest (Ty.obj [("one", "T0"), ("two", "T1")]), 2)]⟩⟩ := by decide

/-! ### Claim C10 -/

/-- C10: the converter terminates on every finite JSON value: the fuel
`sizeV x + 1` used by `convertToType` (one unit per consulted node — each
recursive call of `_convertToType` descends into the array's first element
or an object's property value) always suffices, so the embedded recursion
never runs out and `convertToType` returns its value. -/
theorem C10_termination (st : Store) (c : Cache) (x : JSONValue)
    (f : Option String) : ∃ t st2 c2,
    convertRec (sizeV x + 1) x (rootContext f) st c = some (t, st2, c2) ∧
    convertToType st c x f = ⟨t, st2, c2⟩ :=
  convertToType_spec st c x f

/-! ### Claim C8 -/

/-- C8: starting from `createCache()` and threading the returned cache
through successive calls, the ids of the stored declarations are dense:
they are exactly `0, …, n−1` in insertion order where `n` is the number of
entries, and the counter equals the entry count, so each new declaration
received an id strictly greater than all previous ones and the counter
advanced exactly once per new entry. -/
theorem C8_dense_ids {st : Store} {c : Cache} (h : Reachable st c) :
    c.map.map Prod.snd = List.range st.decls.length ∧
    st.decls.map TypeDeclaration.id = List.range st.counter ∧
    c.map.length = st.counter := by
  have hw := reachable_wf h
  exact ⟨hw.ptrs, hw.ids, by rw [wf_maplen hw, wf_len hw]⟩

theorem C8_dense_ids_witness :
    (convertToType createCache.1 createCache.2 (JSONValue.obj []) none).cache.map.map
        Prod.snd =
      List.range
        (convertToType createCache.1 createCache.2
          (JSONValue.obj []) none).store.decls.length ∧
    (convertToType createCache.1 createCache.2 (JSONValue.obj []) none).store.decls.map
        TypeDeclaration.id =
      List.range
        (convertToType createCache.1 createCache.2 (JSONValue.obj []) none).store.counter ∧
    (convertToType createCache.1 createCache.2 (JSONValue.obj []) none).cache.map.length =
      (convertToType createCache.1 createCache.2 (JSONValue.obj []) none).store.counter :=
  C8_dense_ids (Reachable.step (JSONValue.obj []) none Reachable.init)

/-! ### Claim C7 -/

/-- C7: across any run, declarations are created exactly once and never
deleted or overwritten: in every reachable state the map keys are pairwise
distinct (in particular forced-unique perturbed keys never collide with a
plain digest key or with each other), a further conversion only appends
fresh bindings (the extended key list is still duplicate-free), no
declaration is removed, and an existing declaration keeps its id and type,
its only mutation being appended context entries. -/
theorem C7_created_once {st : Store} {c : Cache} (h : Reachable st c)
    (x : JSONValue) (f : Option String) :
    (c.map.map Prod.fst).Nodup ∧
    (∃ l, (convertToType st c x f).cache.map = c.map ++ l ∧
      ((c.map ++ l).map Prod.fst).Nodup) ∧
    st.decls.length ≤ (convertToType st c x f).store.decls.length ∧
    (∀ p, p < st.decls.length →
      ((convertToType st c x f).store.decls.getD p dummyDecl).id =
        (st.decls.getD p dummyDecl).id ∧
      ((convertToType st c x f).store.decls.getD p dummyDecl).ty =
        (st.decls.getD p dummyDecl).ty ∧
      ∃ cs, ((convertToType st c x f).store.decls.getD p dummyDecl).contexts =
        (st.decls.getD p dummyDecl).contexts ++ cs) := by
  have hw := reachable_wf h
  obtain ⟨hw2, hext⟩ := convertToType_wf hw x f
  obtain ⟨l, hl⟩ := hext.map_ext
  refine ⟨hw.keysN, ⟨l, hl, ?_⟩, hext.decls_le, hext.decls_stable⟩
  rw [← hl]
  exact hw2.keysN

theorem C7_created_once_witness :
    ((createCache.2.map.map Prod.fst).Nodup ∧
    (∃ l, (convertToType createCache.1 createCache.2 (JSONValue.arr []) none).cache.map =
        createCache.2.map ++ l ∧
      ((createCache.2.map ++ l).map Prod.fst).Nodup) ∧
    createCache.1.decls.length ≤
      (convertToType createCache.1 createCache.2 (JSONValue.arr []) none).store.decls.length ∧
    (∀ p, p < createCache.1.decls.length →
      ((convertToType createCache.1 createCache.2
          (JSONValue.arr []) none).store.decls.getD p dummyDecl).id =
        (createCache.1.decls.getD p dummyDecl).id ∧
      ((convertToType createCache.1 createCache.2
          (JSONValue.arr []) none).store.decls.getD p dummyDecl).ty =
        (createCache.1.decls.getD p dummyDecl).ty ∧
      ∃ cs, ((convertToType createCache.1 createCache.2
          (JSONValue.arr []) none).store.decls.getD p dummyDecl).contexts =
        (createCache.1.decls.getD p dummyDecl).contexts ++ cs)) :=
  C7_created_once Reachable.init (JSONValue.arr []) none

/-! ### Claim C2 -/

/-- C2 counterexample: `convertToType` is not pure with respect to the
input cache's observable state.  The id closure is shared
(`id: cache.id`), so a first conversion of `{}` against the fresh cache
advances the counter, and re-running the *same* conversion against the
*original* cache afterwards yields alias `"T1"` where it would have yielded
`"T0"` had the first call never happened: the sequence of ids produced by
the input cache's `id()` observably changed. -/
theorem C2_counterexample :
    (convertToType createCache.1 createCache.2 (JSONValue.obj []) none).type = "T0" ∧
    (convertToType
        (convertToType createCache.1 createCache.2 (JSONValue.obj []) none).store
        createCache.2 (JSONValue.obj []) none).type = "T1" ∧
    (convertToType
        (convertToType createCache.1 createCache.2 (JSONValue.obj []) none).store
        createCache.2 (JSONValue.obj []) none).type ≠
      (convertToType createCache.1 createCache.2 (JSONValue.obj []) none).type := by
  decide

/-- C2 (amended): `convertToType` never mutates the input cache's map —
every binding of the input map persists unchanged in the returned cache,
whose map extends it by appends only — but the id closure and the
declaration objects are shared rather than copied: the shared counter
advances exactly once per newly registered declaration, and declarations
reachable from the input cache keep their id and type while their contexts
may grow; growth in entries appears only in the returned cache. -/
theorem C2_frame {st : Store} {c : Cache} (h : Reachable st c)
    (x : JSONValue) (f : Option String) :
    (∃ l, (convertToType st c x f).cache.map = c.map ++ l) ∧
    st.counter ≤ (convertToType st c x f).store.counter ∧
    (convertToType st c x f).store.counter - st.counter =
      (convertToType st c x f).store.decls.length - st.decls.length ∧
    (∀ p, p < st.decls.length →
      ((convertToType st c x f).store.decls.getD p dummyDecl).id =
        (st.decls.getD p dummyDecl).id ∧
      ((convertToType st c x f).store.decls.getD p dummyDecl).ty =
        (st.decls.getD p dummyDecl).ty ∧
      ∃ cs, ((convertToType st c x f).store.decls.getD p dummyDecl).contexts =
        (st.decls.getD p dummyDecl).contexts ++ cs) := by
  have hw := reachable_wf h
  obtain ⟨hw2, hext⟩ := convertToType_wf hw x f
  refine ⟨hext.map_ext, hext.counter_le, ?_, hext.decls_stable⟩
  rw [← wf_len hw, ← wf_len hw2]

theorem C2_frame_witness :
    ((∃ l, (convertToType createCache.1 createCache.2 (JSONValue.arr []) none).cache.map =
        createCache.2.map ++ l) ∧
    createCache.1.counter ≤
      (convertToType createCache.1 createCache.2 (JSONValue.arr []) none).store.counter ∧
    (convertToType createCache.1 createCache.2 (JSONValue.arr []) none).store.counter -
        createCache.1.counter =
      (convertToType createCache.1 createCache.2
          (JSONValue.arr []) none).store.decls.length -
        createCache.1.decls.length ∧
    (∀ p, p < createCache.1.decls.length →
      ((convertToType createCache.1 createCache.2
          (JSONValue.arr []) none).store.decls.getD p dummyDecl).id =
        (createCache.1.decls.getD p dummyDecl).id ∧
      ((convertToType createCache.1 createCache.2
          (JSONValue.arr []) none).store.decls.getD p dummyDecl).ty =
        (createCache.1.decls.getD p dummyDecl).ty ∧
      ∃ cs, ((convertToType createCache.1 createCache.2
          (JSONValue.arr []) none).store.decls.getD p dummyDecl).contexts =
        (createCache.1.decls.getD p dummyDecl).contexts ++ cs)) :=
  C2_frame Reachable.init (JSONValue.arr []) none

/-! ### Claim C4 -/

/-- C4: registering a structural type whose hash is already bound (with
`forceUnique` false) returns the existing declaration's alias, appends the
new origin to that declaration's contexts in encounter order, consumes no
new id (the counter is unchanged), adds no entry (map and declaration count
unchanged), and alters no other declaration. -/
theorem C4_reuse {st : Store} {c : Cache} {t : Ty} {p : Nat} (h : WFState st c)
    (context : String) (hf : mapFind c.map (HKey.digest t) = some p) :
    (createType st c t context false).1 =
      typeAlias ((st.decls.getD p dummyDecl).id) ∧
    (createType st c t context false).2.1.counter = st.counter ∧
    (createType st c t context false).2.2 = c ∧
    (createType st c t context false).2.1.decls.length = st.decls.length ∧
    ((createType st c t context false).2.1.decls.getD p dummyDecl).contexts =
      (st.decls.getD p dummyDecl).contexts ++ [context] ∧
    ∀ q, q < st.decls.length → q ≠ p →
      (createType st c t context false).2.1.decls.getD q dummyDecl =
        st.decls.getD q dummyDecl := by
  rw [createType_reuse context hf]
  have hp : p < st.decls.length := wf_ptr_lt h (mapFind_mem hf)
  refine ⟨rfl, rfl, rfl, List.length_set _ _ _, ?_, ?_⟩
  · rw [getD_set_self _ _ _ _ hp]
  · intro q _ hq
    exact getD_set_ne _ _ _ _ _ (fun he => hq he.symm)

theorem C4_reuse_witness :
    ((createType
        (convertToType createCache.1 createCache.2 (JSONValue.obj []) none).store
        (convertToType createCache.1 createCache.2 (JSONValue.obj []) none).cache
        (Ty.obj []) "again" false).1 =
      typeAlias
        (((convertToType createCache.1 createCache.2
            (JSONValue.obj []) none).store.decls.getD 0 dummyDecl).id) ∧
    (createType
        (convertToType createCache.1 createCache.2 (JSONValue.obj []) none).store
        (convertToType createCache.1 createCache.2 (JSONValue.obj []) none).cache
        (Ty.obj []) "again" false).2.1.counter =
      (convertToType createCache.1 createCache.2 (JSONValue.obj []) none).store.counter ∧
    (createType
        (convertToType createCache.1 createCache.2 (JSONValue.obj []) none).store
        (convertToType createCache.1 createCache.2 (JSONValue.obj []) none).cache
        (Ty.obj []) "again" false).2.2 =
      (convertToType createCache.1 createCache.2 (JSONValue.obj []) none).cache ∧
    (createType
        (convertToType createCache.1 createCache.2 (JSONValue.obj []) none).store
        (convertToType createCache.1 createCache.2 (JSONValue.obj []) none).cache
        (Ty.obj []) "again" false).2.1.decls.length =
      (convertToType createCache.1 createCache.2
        (JSONValue.obj []) none).store.decls.length ∧
    ((createType
        (convertToType createCache.1 createCache.2 (JSONValue.obj []) none).store
        (convertToType createCache.1 createCache.2 (JSONValue.obj []) none).cache
        (Ty.obj []) "again" false).2.1.decls.getD 0 dummyDecl).contexts =
      ((convertToType createCache.1 createCache.2
          (JSONValue.obj []) none).store.decls.getD 0 dummyDecl).contexts ++ ["again"] ∧
    ∀ q, q < (convertToType createCache.1 createCache.2
        (JSONValue.obj []) none).store.decls.length → q ≠ 0 →
      (createType
          (convertToType createCache.1 createCache.2 (JSONValue.obj []) none).store
          (convertToType createCache.1 createCache.2 (JSONValue.obj []) none).cache
          (Ty.obj []) "again" false).2.1.decls.getD q dummyDecl =
        (convertToType createCache.1 createCache.2
          (JSONValue.obj []) none).store.decls.getD q dummyDecl) :=
  C4_reuse
    (reachable_wf (Reachable.step (JSONValue.obj []) none Reachable.init))
    "again" (by decide)

/-! ### Claim C5 -/

theorem convertToType_empty_arr (st : Store) (c : Cache) (f : Option String) :
    convertToType st c (JSONValue.arr []) f =
      ⟨(createType st c (Ty.str "unknown[]") (rootContext f) true).1,
       (createType st c (Ty.str "unknown[]") (rootContext f) true).2.1,
       (createType st c (Ty.str "unknown[]") (rootContext f) true).2.2⟩ := rfl

/-- An empty array converted from a well-formed state: fresh forced-unique
declaration, fresh alias, appended perturbed binding. -/
theorem empty_arr_step {st : Store} {c : Cache} (hw : WFState st c)
    (f : Option String) :
    convertToType st c (JSONValue.arr []) f =
      ⟨typeAlias st.counter,
       ⟨st.counter + 1,
        st.decls ++ [⟨st.counter, [rootContext f], Ty.str "unknown[]"⟩]⟩,
       ⟨c.map ++
          [(HKey.perturbed (Ty.str "unknown[]") st.counter, st.decls.length)]⟩⟩ := by
  rw [convertToType_empty_arr, createType_unique,
    mapSet_append _ (perturbed_fresh hw (Ty.str "unknown[]"))]

theorem typeAlias_ne_unknown (i : Nat) : typeAlias i ≠ "unknown[]" := by
  intro he
  have := congrArg String.data he
  rw [typeAlias_data] at this
  have h2 : 'T' = 'u' := by
    have := congrArg (fun l => l.head?) this
    simpa using this
  exact absurd h2 (by decide)

/-- C5: any two empty arrays encountered during a run each register their
own forced-unique `unknown[]` declaration: from any reachable state, two
successive conversions of `[]` yield the aliases of two consecutive fresh
ids — in particular two different aliases — each new declaration has type
`unknown[]` and exactly the one origin context, the returned string is an
alias and never the bare string `"unknown[]"` (so a root-level empty array
is legal and still aliased), and in the resulting state every declaration
bound by a forced-unique perturbed key carries exactly one context. -/
theorem C5_empty_arrays_unique {st : Store} {c : Cache} (h : Reachable st c)
    (f1 f2 : Option String) :
    (convertToType st c (JSONValue.arr []) f1).type = typeAlias st.counter ∧
    (convertToType (convertToType st c (JSONValue.arr []) f1).store
        (convertToType st c (JSONValue.arr []) f1).cache
        (JSONValue.arr []) f2).type = typeAlias (st.counter + 1) ∧
    (convertToType st c (JSONValue.arr []) f1).type ≠
      (convertToType (convertToType st c (JSONValue.arr []) f1).store
        (convertToType st c (JSONValue.arr []) f1).cache
        (JSONValue.arr []) f2).type ∧
    (convertToType st c (JSONValue.arr []) f1).type ≠ "unknown[]" ∧
    ((convertToType (convertToType st c (JSONValue.arr []) f1).store
        (convertToType st c (JSONValue.arr []) f1).cache
        (JSONValue.arr []) f2).store.decls.getD st.decls.length dummyDecl =
      ⟨st.counter, [rootContext f1], Ty.str "unknown[]"⟩) ∧
    ((convertToType (convertToType st c (JSONValue.arr []) f1).store
        (convertToType st c (JSONValue.arr []) f1).cache
        (JSONValue.arr []) f2).store.decls.getD (st.decls.length + 1) dummyDecl =
      ⟨st.counter + 1, [rootContext f2], Ty.str "unknown[]"⟩) ∧
    (∀ kp ∈ (convertToType (convertToType st c (JSONValue.arr []) f1).store
        (convertToType st c (JSONValue.arr []) f1).cache
        (JSONValue.arr []) f2).cache.map, ∀ t i, kp.1 = HKey.perturbed t i →
      ((convertToType (convertToType st c (JSONValue.arr []) f1).store
          (convertToType st c (JSONValue.arr []) f1).cache
          (JSONValue.arr []) f2).store.decls.getD kp.2 dummyDecl).contexts.length = 1) := by
  have hw := reachable_wf h
  have e1 := empty_arr_step hw f1
  have hw2 : WFState
      ⟨st.counter + 1,
       st.decls ++ [⟨st.counter, [rootContext f1], Ty.str "unknown[]"⟩]⟩
      ⟨c.map ++ [(HKey.perturbed (Ty.str "unknown[]") st.counter, st.decls.length)]⟩ := by
    have h2 := (convertToType_wf hw (JSONValue.arr []) f1).1
    rw [e1] at h2
    exact h2
  have e2 := empty_arr_step hw2 f2
  have hw3 : WFState
      ⟨st.counter + 1 + 1,
       st.decls ++ [⟨st.counter, [rootContext f1], Ty.str "unknown[]"⟩] ++
         [⟨st.counter + 1, [rootContext f2], Ty.str "unknown[]"⟩]⟩
      ⟨c.map ++ [(HKey.perturbed (Ty.str "unknown[]") st.counter, st.decls.length)] ++
         [(HKey.perturbed (Ty.str "unknown[]") (st.counter + 1),
           (st.decls ++
             [(⟨st.counter, [rootContext f1], Ty.str "unknown[]"⟩ :
               TypeDeclaration)]).length)]⟩ := by
    have h2 := (convertToType_wf hw2 (JSONValue.arr []) f2).1
    rw [e2] at h2
    exact h2
  rw [e1]
  dsimp only
  rw [e2]
  dsimp only
  have hlen : st.decls.length = st.counter := wf_len hw
  refine ⟨rfl, rfl, ?_, typeAlias_ne_unknown _, ?_, ?_, ?_⟩
  · intro he
    have := typeAlias_inj he
    omega
  · rw [getD_append_lt _ _ _ _ (by simp), getD_append_len]
  · have h2 : st.decls.length + 1 =
        (st.decls ++ [(⟨st.counter, [rootContext f1], Ty.str "unknown[]"⟩ :
          TypeDeclaration)]).length := by simp
    rw [h2, getD_append_len]
  · intro kp hkp t i hki
    have hb := hw3.kbind kp hkp
    obtain ⟨k, q⟩ := kp
    simp only at hki
    rw [hki] at hb
    simp only [KeyMatches] at hb
    exact hb.2.2

theorem C5_empty_arrays_unique_witness :
    ((convertToType createCache.1 createCache.2 (JSONValue.arr []) none).type =
      typeAlias createCache.1.counter ∧
    (convertToType (convertToType createCache.1 createCache.2 (JSONValue.arr []) none).store
        (convertToType createCache.1 createCache.2 (JSONValue.arr []) none).cache
        (JSONValue.arr []) (some "b")).type = typeAlias (createCache.1.counter + 1) ∧
    (convertToType createCache.1 createCache.2 (JSONValue.arr []) none).type ≠
      (convertToType (convertToType createCache.1 createCache.2 (JSONValue.arr []) none).store
        (convertToType createCache.1 createCache.2 (JSONValue.arr []) none).cache
        (JSONValue.arr []) (some "b")).type ∧
    (convertToType createCache.1 createCache.2 (JSONValue.arr []) none).type ≠ "unknown[]" ∧
    ((convertToType (convertToType createCache.1 createCache.2 (JSONValue.arr []) none).store
        (convertToType createCache.1 createCache.2 (JSONValue.arr []) none).cache
        (JSONValue.arr []) (some "b")).store.decls.getD createCache.1.decls.length dummyDecl =
      ⟨createCache.1.counter, [rootContext none], Ty.str "unknown[]"⟩) ∧
    ((convertToType (convertToType createCache.1 createCache.2 (JSONValue.arr []) none).store
        (convertToType createCache.1 createCache.2 (JSONValue.arr []) none).cache
        (JSONValue.arr []) (some "b")).store.decls.getD
          (createCache.1.decls.length + 1) dummyDecl =
      ⟨createCache.1.counter + 1, [rootContext (some "b")], Ty.str "unknown[]"⟩) ∧
    (∀ kp ∈ (convertToType
        (convertToType createCache.1 createCache.2 (JSONValue.arr []) none).store
        (convertToType createCache.1 createCache.2 (JSONValue.arr []) none).cache
        (JSONValue.arr []) (some "b")).cache.map, ∀ t i, kp.1 = HKey.perturbed t i →
      ((convertToType (convertToType createCache.1 createCache.2 (JSONValue.arr []) none).store
          (convertToType createCache.1 createCache.2 (JSONValue.arr []) none).cache
          (JSONValue.arr []) (some "b")).store.decls.getD kp.2 dummyDecl).contexts.length = 1)) :=
  C5_empty_arrays_unique Reachable.init none (some "b")

/-! ### Claim C9 -/

/-- C9 counterexample: the converter does not fail fast on a runtime value
outside the recognized JSON kinds.  A function value passes none of the
`typeof` guards and is not an array, so it falls through to the object
branch, whose `Object.keys` loop sees no enumerable own properties: the
code silently registers the empty-object type and returns its alias — no
`UnsupportedValueKind` (or any other) error is signalled anywhere in
`_convertToType`. -/
theorem C9_counterexample :
    convertToType createCache.1 createCache.2 JSONValue.func none =
      ⟨"T0", ⟨1, [⟨0, ["root"], Ty.obj []⟩]⟩,
       ⟨[(HKey.digest (Ty.obj []), 0)]⟩⟩ := by decide

/-- C9 (amended): the converter performs no runtime kind validation and has
no error path: a non-JSON runtime value (such as a function) falls through
the `typeof` chain into the object branch and is silently converted exactly
like the object of its enumerable own properties — for a plain function,
like the empty object `{}` — instead of signalling an
`UnsupportedValueKind` error. -/
theorem C9_fallthrough (st : Store) (c : Cache) (f : Option String) :
    convertToType st c JSONValue.func f =
      convertToType st c (JSONValue.obj []) f := rfl

theorem str_append_empty (s : String) : s ++ "" = s := by
  apply string_data_inj
  rw [String.data_append]
  simp [show ("" : String).data = [] from rfl]

theorem alias_unique {st : Store} {c : Cache} (h : WFState st c) {i : Nat}
    (hi : i < st.decls.length) :
    ∃! kp : HKey × Nat, kp ∈ c.map ∧ (st.decls.getD kp.2 dummyDecl).id = i := by
  have hmem : i ∈ c.map.map Prod.snd := by
    rw [h.ptrs, List.mem_range]
    exact hi
  obtain ⟨⟨k3, q3⟩, hkp, hsnd⟩ := List.mem_map.mp hmem
  dsimp only at hsnd
  subst hsnd
  refine ⟨(k3, q3), ⟨hkp, ?_⟩, ?_⟩
  · dsimp only
    exact wf_decl_id h hi
  · rintro ⟨k2, q2⟩ ⟨hkq, hid⟩
    dsimp only at hid
    have hq : q2 < st.decls.length := wf_ptr_lt h hkq
    rw [wf_decl_id h hq] at hid
    subst hid
    have hk : k2 = k3 := nodup_snd_eq (wf_snd_nodup h) hkq hkp
    rw [hk]

theorem createType_alias_form {st : Store} {c : Cache} (h : WFState st c)
    (t : Ty) (context : String) (u : Bool) :
    ∃ i, (createType st c t context u).1 = typeAlias i ∧
      i < (createType st c t context u).2.1.decls.length := by
  cases u with
  | false =>
    cases hf : mapFind c.map (HKey.digest t) with
    | some p =>
      rw [createType_reuse context hf]
      have hp : p < st.decls.length := wf_ptr_lt h (mapFind_mem hf)
      refine ⟨(st.decls.getD p dummyDecl).id, rfl, ?_⟩
      rw [wf_decl_id h hp]
      simpa [List.length_set] using hp
    | none =>
      rw [createType_new_digest context hf]
      refine ⟨st.counter, rfl, ?_⟩
      rw [← wf_len h]
      simp
  | true =>
    rw [createType_unique context]
    refine ⟨st.counter, rfl, ?_⟩
    rw [← wf_len h]
    simp

theorem createType_return_form {st : Store} {c : Cache} (h : WFState st c)
    (t : Ty) (context : String) (u : Bool) :
    ReturnForm (createType st c t context u).2.1 (createType st c t context u).2.2
      (createType st c t context u).1 := by
  obtain ⟨i, hi, hlt⟩ := createType_alias_form h t context u
  refine ⟨(createType st c t context u).1, 0, by rw [arrSuffix, str_append_empty], Or.inr ?_⟩
  refine ⟨i, hi, alias_unique (createType_wf h t context u).1 hlt⟩

theorem convertRec_form : ∀ fuel, ∀ v context st c r, WFState st c →
    convertRec fuel v context st c = some r →
    ReturnForm r.2.1 r.2.2 r.1 := by
  intro fuel
  induction fuel with
  | zero =>
    intro v context st c r _ h
    exact Option.noConfusion h
  | succ fuel ih =>
    intro v context st c r hwf h
    match v with
    | .str s =>
      rw [convertRec] at h
      obtain rfl := (Option.some_inj.mp h).symm
      exact ⟨"string", 0, by rw [arrSuffix, str_append_empty], Or.inl (Or.inl rfl)⟩
    | .num n =>
      rw [convertRec] at h
      obtain rfl := (Option.some_inj.mp h).symm
      exact ⟨"number", 0, by rw [arrSuffix, str_append_empty], Or.inl (Or.inr (Or.inl rfl))⟩
    | .bool b =>
      rw [convertRec] at h
      obtain rfl := (Option.some_inj.mp h).symm
      exact ⟨"boolean", 0, by rw [arrSuffix, str_append_empty],
        Or.inl (Or.inr (Or.inr (Or.inl rfl)))⟩
    | .null =>
      rw [convertRec] at h
      obtain rfl := (Option.some_inj.mp h).symm
      exact ⟨"null", 0, by rw [arrSuffix, str_append_empty],
        Or.inl (Or.inr (Or.inr (Or.inr rfl)))⟩
    | .arr [] =>
      rw [convertRec] at h
      obtain rfl := (Option.some_inj.mp h).symm
      exact createType_return_form hwf _ context true
    | .func =>
      rw [convertRec] at h
      obtain rfl := (Option.some_inj.mp h).symm
      exact createType_return_form hwf _ context false
    | .arr (w :: rest) =>
      rw [convertRec] at h
      cases hx : convertRec fuel w (context ++ "[0]") st c with
      | none =>
        rw [hx] at h
        exact Option.noConfusion h
      | some r1 =>
        obtain ⟨t1, st1, c1⟩ := r1
        rw [hx] at h
        obtain rfl := (Option.some_inj.mp h).symm
        obtain ⟨base, k, hbk, hb⟩ := ih w (context ++ "[0]") st c (t1, st1, c1) hwf hx
        exact ⟨base, k + 1, by
          simp only at hbk
          rw [arrSuffix, ← String.append_assoc, ← hbk], hb⟩
    | .obj props =>
      rw [convertRec] at h
      cases hx : convertProps fuel (sortByKey props) context st c with
      | none =>
        rw [hx] at h
        exact Option.noConfusion h
      | some r1 =>
        obtain ⟨es, st1, c1⟩ := r1
        rw [hx] at h
        obtain rfl := (Option.some_inj.mp h).symm
        have hwf1 := ((convertRec_wf fuel).2 (sortByKey props) context st c
          (es, st1, c1) hwf hx).1
        exact createType_return_form hwf1 (Ty.obj es) context false

/-- C1 (amended): the string returned by `convertToType` for any input is a
primitive type name or an alias reference `"T<id>"` that corresponds to
exactly one declaration in the returned cache, followed by zero or more
`"[]"` suffixes.  For a non-empty array the composite `elementType + "[]"`
is returned directly and is not itself registered in the cache — it can
only enter the cache as a member string of an enclosing object type. -/
theorem C1_return_form {st : Store} {c : Cache} (h : Reachable st c)
    (x : JSONValue) (f : Option String) :
    ReturnForm (convertToType st c x f).store (convertToType st c x f).cache
      (convertToType st c x f).type := by
  obtain ⟨t, st2, c2, hx, he⟩ := convertToType_spec st c x f
  rw [he]
  exact convertRec_form _ x _ st c (t, st2, c2) (reachable_wf h) hx

theorem C1_return_form_witness :
    ReturnForm
      (convertToType createCache.1 createCache.2
        (JSONValue.arr [JSONValue.num 1]) none).store
      (convertToType createCache.1 createCache.2
        (JSONValue.arr [JSONValue.num 1]) none).cache
      (convertToType createCache.1 createCache.2
        (JSONValue.arr [JSONValue.num 1]) none).type :=
  C1_return_form Reachable.init (JSONValue.arr [JSONValue.num 1]) none

/-- C1 counterexample: for the non-empty array input `[1]`, `convertToType`
returns the composite string `"number[]"` and registers nothing — the
returned cache and store are empty, so the composite is not in the cache
under any hashing rule, and the returned string is neither one of the four
primitive type names nor of the alias form (every alias starts with
`'T'`). -/
theorem C1_counterexample :
    convertToType createCache.1 createCache.2
        (JSONValue.arr [JSONValue.num 1]) none =
      ⟨"number[]", ⟨0, []⟩, ⟨[]⟩⟩ ∧
    "number[]" ≠ "string" ∧ "number[]" ≠ "number" ∧
    "number[]" ≠ "boolean" ∧ "number[]" ≠ "null" ∧
    ("number[]").data.head? ≠ some 'T' := by decide

theorem shapeP_eq_map : ∀ l : List (String × JSONValue),
    shapeP l = l.map (fun q => (q.1, shape q.2)) := by
  intro l
  induction l with
  | nil => rfl
  | cons p rest ih =>
    obtain ⟨k, v⟩ := p
    rw [shapeP, ih, List.map_cons]

theorem shapeP_sortByKey (props : List (String × JSONValue)) :
    shapeP (sortByKey props) = sortByKey (shapeP props) := by
  rw [shapeP_eq_map, shapeP_eq_map, sortByKey_map]

theorem noEmptyArrP_iff : ∀ l : List (String × JSONValue),
    noEmptyArrP l = true ↔ ∀ p ∈ l, noEmptyArr p.2 = true := by
  intro l
  induction l with
  | nil => simp [noEmptyArrP]
  | cons p rest ih =>
    obtain ⟨k, v⟩ := p
    rw [noEmptyArrP]
    simp only [Bool.and_eq_true, List.mem_cons, ih]
    constructor
    · rintro ⟨h1, h2⟩ q (hq | hq)
      · rw [hq]
        exact h1
      · exact h2 q hq
    · intro hh
      exact ⟨hh (k, v) (Or.inl rfl), fun q hq => hh q (Or.inr hq)⟩

theorem noEmptyArrP_sortByKey {props : List (String × JSONValue)}
    (h : noEmptyArrP props = true) : noEmptyArrP (sortByKey props) = true := by
  rw [noEmptyArrP_iff] at h ⊢
  intro p hp
  exact h p ((sortByKey_perm props).mem_iff.mp hp)

mutual
theorem evalShape_mono {st : Store} {c : Cache} {st2 : Store} {c2 : Cache}
    (hext : StateExt st c st2 c2) :
    ∀ s t, evalShape st c s t → evalShape st2 c2 s t
  | .sstr, _, h => h
  | .snum, _, h => h
  | .sbool, _, h => h
  | .snull, _, h => h
  | .sarrE, _, h => h.elim
  | .sarr s, t, h => by
    obtain ⟨u, hu, ht⟩ := h
    exact ⟨u, evalShape_mono hext s u hu, ht⟩
  | .sobj ms, t, h => by
    obtain ⟨entries, p, hm, hf, hp, ht⟩ := h
    obtain ⟨l, hl⟩ := hext.map_ext
    refine ⟨entries, p, evalMembers_mono hext ms entries hm, ?_, ?_, ?_⟩
    · rw [hl]
      exact mapFind_append_left hf
    · exact Nat.lt_of_lt_of_le hp hext.decls_le
    · rw [ht, (hext.decls_stable p hp).1]
theorem evalMembers_mono {st : Store} {c : Cache} {st2 : Store} {c2 : Cache}
    (hext : StateExt st c st2 c2) :
    ∀ ms es, evalMembers st c ms es → evalMembers st2 c2 ms es
  | [], [], h => h
  | (k, s) :: ms, (k2, u) :: es, h => by
    obtain ⟨hk, hs, hm⟩ := h
    exact ⟨hk, evalShape_mono hext s u hs, evalMembers_mono hext ms es hm⟩
  | _ :: _, [], h => h.elim
  | [], _ :: _, h => h.elim
end

mutual
theorem evalShape_unique {st : Store} {c : Cache} (h : WFState st c) :
    ∀ s1 s2 t, evalShape st c s1 t → evalShape st c s2 t → s1 = s2
  | .sstr, s2, t, h1, h2 => by
    have h1 : t = "string" := h1
    subst h1
    match s2, h2 with
    | .sstr, _ => rfl
    | .snum, h2 => exact absurd (show ("string" : String) = "number" from h2) (by decide)
    | .sbool, h2 => exact absurd (show ("string" : String) = "boolean" from h2) (by decide)
    | .snull, h2 => exact absurd (show ("string" : String) = "null" from h2) (by decide)
    | .sarrE, h2 => exact h2.elim
    | .sarr a2, h2 =>
      obtain ⟨u, _, ht⟩ := h2
      exact absurd ht (prim_ne_brackets (Or.inl rfl))
    | .sobj ms2, h2 =>
      obtain ⟨e, p, _, _, _, ht⟩ := h2
      exact absurd ht (prim_ne_alias (Or.inl rfl) _)
  | .snum, s2, t, h1, h2 => by
    have h1 : t = "number" := h1
    subst h1
    match s2, h2 with
    | .snum, _ => rfl
    | .sstr, h2 => exact absurd (show ("number" : String) = "string" from h2) (by decide)
    | .sbool, h2 => exact absurd (show ("number" : String) = "boolean" from h2) (by decide)
    | .snull, h2 => exact absurd (show ("number" : String) = "null" from h2) (by decide)
    | .sarrE, h2 => exact h2.elim
    | .sarr a2, h2 =>
      obtain ⟨u, _, ht⟩ := h2
      exact absurd ht (prim_ne_brackets (Or.inr (Or.inl rfl)))
    | .sobj ms2, h2 =>
      obtain ⟨e, p, _, _, _, ht⟩ := h2
      exact absurd ht (prim_ne_alias (Or.inr (Or.inl rfl)) _)
  | .sbool, s2, t, h1, h2 => by
    have h1 : t = "boolean" := h1
    subst h1
    match s2, h2 with
    | .sbool, _ => rfl
    | .sstr, h2 => exact absurd (show ("boolean" : String) = "string" from h2) (by decide)
    | .snum, h2 => exact absurd (show ("boolean" : String) = "number" from h2) (by decide)
    | .snull, h2 => exact absurd (show ("boolean" : String) = "null" from h2) (by decide)
    | .sarrE, h2 => exact h2.elim
    | .sarr a2, h2 =>
      obtain ⟨u, _, ht⟩ := h2
      exact absurd ht (prim_ne_brackets (Or.inr (Or.inr (Or.inl rfl))))
    | .sobj ms2, h2 =>
      obtain ⟨e, p, _, _, _, ht⟩ := h2
      exact absurd ht (prim_ne_alias (Or.inr (Or.inr (Or.inl rfl))) _)
  | .snull, s2, t, h1, h2 => by
    have h1 : t = "null" := h1
    subst h1
    match s2, h2 with
    | .snull, _ => rfl
    | .sstr, h2 => exact absurd (show ("null" : String) = "string" from h2) (by decide)
    | .snum, h2 => exact absurd (show ("null" : String) = "number" from h2) (by decide)
    | .sbool, h2 => exact absurd (show ("null" : String) = "boolean" from h2) (by decide)
    | .sarrE, h2 => exact h2.elim
    | .sarr a2, h2 =>
      obtain ⟨u, _, ht⟩ := h2
      exact absurd ht (prim_ne_brackets (Or.inr (Or.inr (Or.inr rfl))))
    | .sobj ms2, h2 =>
      obtain ⟨e, p, _, _, _, ht⟩ := h2
      exact absurd ht (prim_ne_alias (Or.inr (Or.inr (Or.inr rfl))) _)
  | .sarrE, s2, t, h1, h2 => h1.elim
  | .sarr a1, s2, t, h1, h2 => by
    obtain ⟨u1, hu1, ht1⟩ := h1
    subst ht1
    match s2, h2 with
    | .sstr, h2 => exact absurd h2.symm (prim_ne_brackets (Or.inl rfl))
    | .snum, h2 => exact absurd h2.symm (prim_ne_brackets (Or.inr (Or.inl rfl)))
    | .sbool, h2 => exact absurd h2.symm (prim_ne_brackets (Or.inr (Or.inr (Or.inl rfl))))
    | .snull, h2 => exact absurd h2.symm (prim_ne_brackets (Or.inr (Or.inr (Or.inr rfl))))
    | .sarrE, h2 => exact h2.elim
    | .sarr a2, h2 =>
      obtain ⟨u2, hu2, ht2⟩ := h2
      have heq : u1 = u2 := brackets_inj ht2
      rw [evalShape_unique h a1 a2 u1 hu1 (by rw [heq]; exact hu2)]
    | .sobj ms2, h2 =>
      obtain ⟨e, p, _, _, _, ht⟩ := h2
      exact absurd ht.symm (alias_ne_brackets _ _)
  | .sobj ms1, s2, t, h1, h2 => by
    obtain ⟨e1, p1, hm1, hf1, hp1, ht1⟩ := h1
    match s2, h2 with
    | .sstr, h2 =>
      rw [h2] at ht1
      exact absurd ht1 (prim_ne_alias (Or.inl rfl) _)
    | .snum, h2 =>
      rw [h2] at ht1
      exact absurd ht1 (prim_ne_alias (Or.inr (Or.inl rfl)) _)
    | .sbool, h2 =>
      rw [h2] at ht1
      exact absurd ht1 (prim_ne_alias (Or.inr (Or.inr (Or.inl rfl))) _)
    | .snull, h2 =>
      rw [h2] at ht1
      exact absurd ht1 (prim_ne_alias (Or.inr (Or.inr (Or.inr rfl))) _)
    | .sarrE, h2 => exact h2.elim
    | .sarr a2, h2 =>
      obtain ⟨u, _, ht2⟩ := h2
      exact absurd (ht1.symm.trans ht2) (alias_ne_brackets _ _)
    | .sobj ms2, h2 =>
      obtain ⟨e2, p2, hm2, hf2, hp2, ht2⟩ := h2
      have hid1 : (st.decls.getD p1 dummyDecl).id = p1 := wf_decl_id h hp1
      have hid2 : (st.decls.getD p2 dummyDecl).id = p2 := wf_decl_id h hp2
      have hpp : p1 = p2 := by
        have h3 := typeAlias_inj (ht1.symm.trans ht2)
        rw [hid1, hid2] at h3
        exact h3
      subst hpp
      have hkeq : HKey.digest (Ty.obj e1) = HKey.digest (Ty.obj e2) :=
        nodup_snd_eq (wf_snd_nodup h) (mapFind_mem hf1) (mapFind_mem hf2)
      have hty : Ty.obj e1 = Ty.obj e2 := by injection hkeq
      have he : e1 = e2 := by injection hty
      rw [evalMembers_unique h ms1 ms2 e1 hm1 (by rw [he]; exact hm2)]
theorem evalMembers_unique {st : Store} {c : Cache} (h : WFState st c) :
    ∀ ms1 ms2 es, evalMembers st c ms1 es → evalMembers st c ms2 es → ms1 = ms2
  | [], [], _, _, _ => rfl
  | [], (k, s) :: ms2, es, h1, h2 => by
    match es, h1, h2 with
    | [], _, h2 => exact h2.elim
    | _ :: _, h1, _ => exact h1.elim
  | (k, s) :: ms1, [], es, h1, h2 => by
    match es, h1, h2 with
    | [], h1, _ => exact h1.elim
    | _ :: _, _, h2 => exact h2.elim
  | (k1, s1) :: ms1, (k2, s2) :: ms2, es, h1, h2 => by
    match es, h1, h2 with
    | [], h1, _ => exact h1.elim
    | (ke, u) :: es2, h1, h2 =>
      obtain ⟨hk1, hs1, hm1⟩ := h1
      obtain ⟨hk2, hs2, hm2⟩ := h2
      rw [← hk1, ← hk2, evalShape_unique h s1 s2 u hs1 hs2,
        evalMembers_unique h ms1 ms2 es2 hm1 hm2]
end

theorem createType_eval {st : Store} {c : Cache} (h : WFState st c)
    (t : Ty) (ctx : String) :
    ∃ p, mapFind (createType st c t ctx false).2.2.map (HKey.digest t) = some p ∧
      p < (createType st c t ctx false).2.1.decls.length ∧
      (createType st c t ctx false).1 =
        typeAlias (((createType st c t ctx false).2.1.decls.getD p dummyDecl).id) := by
  cases hf : mapFind c.map (HKey.digest t) with
  | some p =>
    rw [createType_reuse ctx hf]
    have hp := wf_ptr_lt h (mapFind_mem hf)
    refine ⟨p, hf, by simpa [List.length_set] using hp, ?_⟩
    rw [getD_set_self _ _ _ _ hp]
  | none =>
    rw [createType_new_digest ctx hf]
    rw [mapSet_append _ (mapFind_none_not_mem hf)]
    refine ⟨st.decls.length, mapFind_append_self _ hf, by simp, ?_⟩
    rw [getD_append_len]

theorem convertRec_record : ∀ fuel,
    (∀ v context st c r, WFState st c → noEmptyArr v = true →
      convertRec fuel v context st c = some r →
      evalShape r.2.1 r.2.2 (shape v) r.1) ∧
    (∀ l context st c r2, WFState st c → noEmptyArrP l = true →
      convertProps fuel l context st c = some r2 →
      evalMembers r2.2.1 r2.2.2 (shapeP l) r2.1) := by
  intro fuel
  induction fuel with
  | zero =>
    constructor
    · intro v context st c r _ _ h
      exact Option.noConfusion h
    · intro l context st c r2 _ _ h
      exact Option.noConfusion h
  | succ fuel ih =>
    constructor
    · intro v context st c r hwf hne h
      match v with
      | .str s =>
        rw [convertRec] at h
        obtain rfl := (Option.some_inj.mp h).symm
        rfl
      | .num n =>
        rw [convertRec] at h
        obtain rfl := (Option.some_inj.mp h).symm
        rfl
      | .bool b =>
        rw [convertRec] at h
        obtain rfl := (Option.some_inj.mp h).symm
        rfl
      | .null =>
        rw [convertRec] at h
        obtain rfl := (Option.some_inj.mp h).symm
        rfl
      | .arr [] => exact absurd hne (by rw [noEmptyArr]; simp)
      | .func =>
        rw [convertRec] at h
        obtain rfl := (Option.some_inj.mp h).symm
        obtain ⟨p, hf, hp, ht⟩ := createType_eval hwf (Ty.obj []) context
        exact ⟨[], p, trivial, hf, hp, ht⟩
      | .arr (w :: rest) =>
        rw [convertRec] at h
        cases hx : convertRec fuel w (context ++ "[0]") st c with
        | none =>
          rw [hx] at h
          exact Option.noConfusion h
        | some r1 =>
          obtain ⟨t1, st1, c1⟩ := r1
          rw [hx] at h
          obtain rfl := (Option.some_inj.mp h).symm
          have hne1 : noEmptyArr w = true := by
            rw [noEmptyArr] at hne
            exact hne
          exact ⟨t1, ih.1 w (context ++ "[0]") st c (t1, st1, c1) hwf hne1 hx, rfl⟩
      | .obj props =>
        rw [convertRec] at h
        cases hx : convertProps fuel (sortByKey props) context st c with
        | none =>
          rw [hx] at h
          exact Option.noConfusion h
        | some r1 =>
          obtain ⟨es, st1, c1⟩ := r1
          rw [hx] at h
          obtain rfl := (Option.some_inj.mp h).symm
          have hne1 : noEmptyArrP (sortByKey props) = true :=
            noEmptyArrP_sortByKey (by rw [noEmptyArr] at hne; exact hne)
          have hwf1 := ((convertRec_wf fuel).2 (sortByKey props) context st c
            (es, st1, c1) hwf hx).1
          have hm := ih.2 (sortByKey props) context st c (es, st1, c1) hwf hne1 hx
          obtain ⟨p, hf, hp, ht⟩ := createType_eval hwf1 (Ty.obj es) context
          refine ⟨es, p, ?_, hf, hp, ht⟩
          have hmono := evalMembers_mono (createType_wf hwf1 (Ty.obj es) context false).2
            (shapeP (sortByKey props)) es hm
          rw [shapeP_sortByKey] at hmono
          exact hmono
    · intro l context st c r2 hwf hne h
      match l with
      | [] =>
        rw [convertProps] at h
        obtain rfl := (Option.some_inj.mp h).symm
        exact trivial
      | (k, v) :: rest =>
        rw [convertProps] at h
        rw [noEmptyArrP, Bool.and_eq_true] at hne
        cases hx : convertRec fuel v (context ++ contextSuffix k) st c with
        | none =>
          rw [hx] at h
          exact Option.noConfusion h
        | some r1 =>
          obtain ⟨t1, st1, c1⟩ := r1
          rw [hx] at h
          dsimp only at h
          cases hy : convertProps fuel rest context st1 c1 with
          | none =>
            rw [hy] at h
            exact Option.noConfusion h
          | some rr =>
            obtain ⟨es, st3, c3⟩ := rr
            rw [hy] at h
            obtain rfl := (Option.some_inj.mp h).symm
            have hwf1 := ((convertRec_wf fuel).1 v (context ++ contextSuffix k) st c
              (t1, st1, c1) hwf hx).1
            have hext2 := ((convertRec_wf fuel).2 rest context st1 c1
              (es, st3, c3) hwf1 hy).2
            have hv := ih.1 v (context ++ contextSuffix k) st c (t1, st1, c1) hwf hne.1 hx
            have hrest := ih.2 rest context st1 c1 (es, st3, c3) hwf1 hne.2 hy
            exact ⟨rfl, evalShape_mono hext2 (shape v) t1 hv, hrest⟩

theorem convertRec_hit : ∀ fuel,
    (∀ v context st c r t0, WFState st c →
      evalShape st c (shape v) t0 →
      convertRec fuel v context st c = some r → r.1 = t0) ∧
    (∀ l context st c r2 es0, WFState st c →
      evalMembers st c (shapeP l) es0 →
      convertProps fuel l context st c = some r2 → r2.1 = es0) := by
  intro fuel
  induction fuel with
  | zero =>
    constructor
    · intro v context st c r t0 _ _ h
      exact Option.noConfusion h
    · intro l context st c r2 es0 _ _ h
      exact Option.noConfusion h
  | succ fuel ih =>
    constructor
    · intro v context st c r t0 hwf hev h
      match v with
      | .str s =>
        rw [convertRec] at h
        obtain rfl := (Option.some_inj.mp h).symm
        exact (show t0 = "string" from hev).symm
      | .num n =>
        rw [convertRec] at h
        obtain rfl := (Option.some_inj.mp h).symm
        exact (show t0 = "number" from hev).symm
      | .bool b =>
        rw [convertRec] at h
        obtain rfl := (Option.some_inj.mp h).symm
        exact (show t0 = "boolean" from hev).symm
      | .null =>
        rw [convertRec] at h
        obtain rfl := (Option.some_inj.mp h).symm
        exact (show t0 = "null" from hev).symm
      | .arr [] => exact (show False from hev).elim
      | .func =>
        rw [convertRec] at h
        obtain rfl := (Option.some_inj.mp h).symm
        obtain ⟨entries, p, hm, hf, hp, ht0⟩ := hev
        have hee : entries = [] := by
          match entries, hm with
          | [], _ => rfl
        rw [hee] at hf
        rw [createType_reuse context hf]
        exact ht0.symm
      | .arr (w :: rest) =>
        rw [convertRec] at h
        obtain ⟨u, hu, ht0⟩ := hev
        cases hx : convertRec fuel w (context ++ "[0]") st c with
        | none =>
          rw [hx] at h
          exact Option.noConfusion h
        | some r1 =>
          obtain ⟨t1, st1, c1⟩ := r1
          rw [hx] at h
          obtain rfl := (Option.some_inj.mp h).symm
          have ht1 : t1 = u :=
            ih.1 w (context ++ "[0]") st c (t1, st1, c1) u hwf hu hx
          show t1 ++ "[]" = t0
          rw [ht0, ht1]
      | .obj props =>
        rw [convertRec] at h
        obtain ⟨entries, p, hm, hf, hp, ht0⟩ := hev
        cases hx : convertProps fuel (sortByKey props) context st c with
        | none =>
          rw [hx] at h
          exact Option.noConfusion h
        | some r1 =>
          obtain ⟨es, st1, c1⟩ := r1
          rw [hx] at h
          obtain rfl := (Option.some_inj.mp h).symm
          have hm2 : evalMembers st c (shapeP (sortByKey props)) entries := by
            rw [shapeP_sortByKey]
            exact hm
          have hes : es = entries :=
            ih.2 (sortByKey props) context st c (es, st1, c1) entries hwf hm2 hx
          obtain ⟨hext1⟩ : ∃ _ : StateExt st c st1 c1, True :=
            ⟨((convertRec_wf fuel).2 (sortByKey props) context st c
              (es, st1, c1) hwf hx).2, trivial⟩
          obtain ⟨l, hl⟩ := hext1.map_ext
          have hf1 : mapFind c1.map (HKey.digest (Ty.obj es)) = some p := by
            rw [hes, hl]
            exact mapFind_append_left hf
          rw [createType_reuse context hf1]
          rw [ht0]
          simp only
          rw [(hext1.decls_stable p hp).1]
    · intro l context st c r2 es0 hwf hev h
      match l with
      | [] =>
        rw [convertProps] at h
        obtain rfl := (Option.some_inj.mp h).symm
        match es0, hev with
        | [], _ => rfl
      | (k, v) :: rest =>
        rw [convertProps] at h
        match es0, hev with
        | [], hev => exact (show False from hev).elim
        | (ke, u) :: es1, hev =>
          obtain ⟨hke, hu, hrest⟩ := hev
          cases hx : convertRec fuel v (context ++ contextSuffix k) st c with
          | none =>
            rw [hx] at h
            exact Option.noConfusion h
          | some r1 =>
            obtain ⟨t1, st1, c1⟩ := r1
            rw [hx] at h
            dsimp only at h
            cases hy : convertProps fuel rest context st1 c1 with
            | none =>
              rw [hy] at h
              exact Option.noConfusion h
            | some rr =>
              obtain ⟨es, st3, c3⟩ := rr
              rw [hy] at h
              obtain rfl := (Option.some_inj.mp h).symm
              have ht1 : t1 = u :=
                ih.1 v (context ++ contextSuffix k) st c (t1, st1, c1) u hwf hu hx
              have hwf1 := ((convertRec_wf fuel).1 v (context ++ contextSuffix k) st c
                (t1, st1, c1) hwf hx).1
              have hext1 := ((convertRec_wf fuel).1 v (context ++ contextSuffix k) st c
                (t1, st1, c1) hwf hx).2
              have hes : es = es1 :=
                ih.2 rest context st1 c1 (es, st3, c3) es1 hwf1
                  (evalMembers_mono hext1 (shapeP rest) es1 hrest) hy
              rw [← hke, ht1, hes]

/-- C3 (amended): restricted to JSON values containing no empty array (an
empty array is forced-unique, so two occurrences of the same
empty-array-containing shape deliberately produce different canonical
types), the canonical types produced by normalization on a shared cache are
identical exactly when the two values have the same shape: converting `v1`
and then `v2` with the threaded cache returns the same string iff
`shape v1 = shape v2`, where the shape consults only an array's first
element (order and length are not part of it) and sorts object keys; in
particular two objects differing only in property declaration order have
the same shape, hence identical canonical types and identical hashes. -/
theorem C3_shape_iff {st : Store} {c : Cache} (h : Reachable st c)
    (v1 v2 : JSONValue) (f1 f2 : Option String)
    (h1 : noEmptyArr v1 = true) (h2 : noEmptyArr v2 = true) :
    ((convertToType st c v1 f1).type =
        (convertToType (convertToType st c v1 f1).store
          (convertToType st c v1 f1).cache v2 f2).type ↔
      shape v1 = shape v2) ∧
    (∀ ps1 ps2 : List (String × JSONValue), ps1.Perm ps2 →
      (ps1.map Prod.fst).Nodup →
      shape (JSONValue.obj ps1) = shape (JSONValue.obj ps2)) := by
  constructor
  · have hw := reachable_wf h
    obtain ⟨t1, st1, c1, hx1, he1⟩ := convertToType_spec st c v1 f1
    rw [he1]
    dsimp only
    obtain ⟨t2, st2, c2, hx2, he2⟩ := convertToType_spec st1 c1 v2 f2
    rw [he2]
    dsimp only
    have hwf1 : WFState st1 c1 :=
      ((convertRec_wf _).1 v1 _ st c (t1, st1, c1) hw hx1).1
    have hrec1 : evalShape st1 c1 (shape v1) t1 :=
      (convertRec_record _).1 v1 _ st c (t1, st1, c1) hw h1 hx1
    have hwf2 : WFState st2 c2 :=
      ((convertRec_wf _).1 v2 _ st1 c1 (t2, st2, c2) hwf1 hx2).1
    have hext2 : StateExt st1 c1 st2 c2 :=
      ((convertRec_wf _).1 v2 _ st1 c1 (t2, st2, c2) hwf1 hx2).2
    have hrec2 : evalShape st2 c2 (shape v2) t2 :=
      (convertRec_record _).1 v2 _ st1 c1 (t2, st2, c2) hwf1 h2 hx2
    constructor
    · intro hteq
      have hmono : evalShape st2 c2 (shape v1) t1 :=
        evalShape_mono hext2 _ _ hrec1
      rw [hteq] at hmono
      exact evalShape_unique hwf2 (shape v1) (shape v2) t2 hmono hrec2
    · intro hseq
      have hev : evalShape st1 c1 (shape v2) t1 := by
        rw [← hseq]
        exact hrec1
      have h3 : t2 = t1 :=
        (convertRec_hit _).1 v2 _ st1 c1 (t2, st2, c2) t1 hwf1 hev hx2
      exact h3.symm
  · intro ps1 ps2 hperm hnodup
    show Shape.sobj (sortByKey (shapeP ps1)) = Shape.sobj (sortByKey (shapeP ps2))
    congr 1
    have hp2 : (shapeP ps1).Perm (shapeP ps2) := by
      rw [shapeP_eq_map, shapeP_eq_map]
      exact hperm.map _
    have hn : ((shapeP ps1).map Prod.fst).Nodup := by
      have he : (shapeP ps1).map Prod.fst = ps1.map Prod.fst := by
        rw [shapeP_eq_map, List.map_map]
        rfl
      rw [he]
      exact hnodup
    exact sortByKey_eq_of_perm hp2 hn

theorem C3_shape_iff_witness :
    (noEmptyArr (JSONValue.obj [("a", JSONValue.str "x")]) = true ∧
     noEmptyArr (JSONValue.obj [("a", JSONValue.str "y")]) = true) ∧
    (((convertToType createCache.1 createCache.2
          (JSONValue.obj [("a", JSONValue.str "x")]) none).type =
        (convertToType
          (convertToType createCache.1 createCache.2
            (JSONValue.obj [("a", JSONValue.str "x")]) none).store
          (convertToType createCache.1 createCache.2
            (JSONValue.obj [("a", JSONValue.str "x")]) none).cache
          (JSONValue.obj [("a", JSONValue.str "y")]) none).type ↔
      shape (JSONValue.obj [("a", JSONValue.str "x")]) =
        shape (JSONValue.obj [("a", JSONValue.str "y")])) ∧
    (∀ ps1 ps2 : List (String × JSONValue), ps1.Perm ps2 →
      (ps1.map Prod.fst).Nodup →
      shape (JSONValue.obj ps1) = shape (JSONValue.obj ps2))) :=
  ⟨⟨by decide, by decide⟩,
   C3_shape_iff Reachable.init
     (JSONValue.obj [("a", JSONValue.str "x")])
     (JSONValue.obj [("a", JSONValue.str "y")]) none none
     (by decide) (by decide)⟩

/-- C3 counterexample: the claimed equivalence fails for values containing
empty arrays.  The value `{a: []}` trivially has the same shape as itself,
yet normalizing it twice on a shared cache produces different canonical
types: the first run returns `"T1"` registering `{a: "T0"}`, the second
returns `"T3"` registering `{a: "T2"}`, because each empty array is
forced-unique. -/
theorem C3_counterexample :
    shape (JSONValue.obj [("a", JSONValue.arr [])]) =
      shape (JSONValue.obj [("a", JSONValue.arr [])]) ∧
    (convertToType createCache.1 createCache.2
      (JSONValue.obj [("a", JSONValue.arr [])]) none).type = "T1" ∧
    (convertToType
      (convertToType createCache.1 createCache.2
        (JSONValue.obj [("a", JSONValue.arr [])]) none).store
      (convertToType createCache.1 createCache.2
        (JSONValue.obj [("a", JSONValue.arr [])]) none).cache
      (JSONValue.obj [("a", JSONValue.arr [])]) none).type = "T3" ∧
    (convertToType createCache.1 createCache.2
      (JSONValue.obj [("a", JSONValue.arr [])]) none).type ≠
      (convertToType
        (convertToType createCache.1 createCache.2
          (JSONValue.obj [("a", JSONValue.arr [])]) none).store
        (convertToType createCache.1 createCache.2
          (JSONValue.obj [("a", JSONValue.arr [])]) none).cache
        (JSONValue.obj [("a", JSONValue.arr [])]) none).type ∧
    ((convertToType
        (convertToType createCache.1 createCache.2
          (JSONValue.obj [("a", JSONValue.arr [])]) none).store
        (convertToType createCache.1 createCache.2
          (JSONValue.obj [("a", JSONValue.arr [])]) none).cache
        (JSONValue.obj [("a", JSONValue.arr [])]) none).store.decls.getD 1
          dummyDecl).ty = Ty.obj [("a", "T0")] ∧
    ((convertToType
        (convertToType createCache.1 createCache.2
          (JSONValue.obj [("a", JSONValue.arr [])]) none).store
        (convertToType createCache.1 createCache.2
          (JSONValue.obj [("a", JSONValue.arr [])]) none).cache
        (JSONValue.obj [("a", JSONValue.arr [])]) none).store.decls.getD 3
          dummyDecl).ty = Ty.obj [("a", "T2")] :=
  ⟨rfl, by decide, by decide, by decide, by decide, by decide⟩
